import Mathlib

/-!
Verification of the Verific front end (`src/frontends/verific/verific.cc`)
against its natural-language specification.

The development is a shallow embedding: the data model (nets, instances,
RTLIL module contents) and the operations the claims are about are
translated into executable Lean definitions, keeping the source names
where Lean allows it.  Machine integers are modelled as `Nat` (the values
involved are sizes, counts and identifiers; no overflow is relevant),
fallible code returns `Except`.
-/

namespace Verific

/-! ## Target IR signals and cells (RTLIL fragment used by the SVA importer)

`Sig` models `RTLIL::SigBit`: a constant state or one bit of a wire.
Wires are identified by the `Nat` handed out by the module builder
(`NEW_ID` in the source).  `SCell` models the cells the SVA importer
emits: `module->And`, `module->Mux`, `module->addDff`,
`module->addAssert/addAssume/addCover`. -/

inductive Sig where
  | s0 : Sig
  | s1 : Sig
  | sx : Sig
  | wire (id : Nat) : Sig
deriving DecidableEq, Repr

inductive SCell where
  | andc (a b y : Sig) : SCell
  | muxc (a b s y : Sig) : SCell
  | dff (clk d q : Sig) (posedge : Bool) : SCell
  | assertc (a en : Sig) : SCell
  | assumec (a en : Sig) : SCell
  | coverc (a en : Sig) : SCell
deriving DecidableEq, Repr

/-- The module-builder state: a fresh-id counter (`NEW_ID`), the cells
emitted so far (most recent first), and the ids of the wires that carry
the attribute `init = Const(0, 1)` set by `sequence_ff`. -/
structure MState where
  nextId : Nat
  cells : List SCell
  initZero : List Nat
deriving DecidableEq, Repr

def addWire (st : MState) : MState × Sig :=
  ({ st with nextId := st.nextId + 1 }, Sig.wire st.nextId)

/-- `module->addWire(NEW_ID)` followed by `wire->attributes["init"] = Const(0, 1)`. -/
def addWireInit0 (st : MState) : MState × Sig :=
  ({ st with nextId := st.nextId + 1, initZero := st.nextId :: st.initZero },
   Sig.wire st.nextId)

/-- `module->And(NEW_ID, a, b)`: makes a fresh result wire and an `$and` cell. -/
def addAnd (st : MState) (a b : Sig) : MState × Sig :=
  let p := addWire st
  ({ p.1 with cells := SCell.andc a b p.2 :: p.1.cells }, p.2)

/-- `module->Mux(NEW_ID, a, b, s)`: fresh result wire plus a `$mux` cell. -/
def addMux (st : MState) (a b s : Sig) : MState × Sig :=
  let p := addWire st
  ({ p.1 with cells := SCell.muxc a b s p.2 :: p.1.cells }, p.2)

/-- `module->addDff(NEW_ID, clk, d, q, posedge)`. -/
def addDff (st : MState) (clk d q : Sig) (posedge : Bool) : MState :=
  { st with cells := SCell.dff clk d q posedge :: st.cells }

def isDff : SCell → Bool
  | SCell.dff _ _ _ _ => true
  | _ => false

def isConstraint : SCell → Bool
  | SCell.assertc _ _ => true
  | SCell.assumec _ _ => true
  | SCell.coverc _ _ => true
  | _ => false

/-- Number of `$dff` cells in the builder state. -/
def dffCount (st : MState) : Nat := st.cells.countP (fun c => isDff c)

/-- Number of assert/assume/cover constraint cells in the builder state. -/
def constraintCount (st : MState) : Nat := st.cells.countP (fun c => isConstraint c)

/-! ## The SVA/PSL property AST seen by `VerificSvaImporter::parse_sequence`

`parse_sequence` walks the Verific instance graph through
`net_to_ast_driver`; a net with no recognized SVA/PSL driver is the
regular-expression leaf case (its mapped `SigBit` is taken as condition).
We embed that graph as the tree of recognized operator nodes.  The
`seqConcat` and `consRepeat` nodes carry the parsed integer values of the
instance attributes `sva:low` and `sva:high`
(`atoi(inst->GetAttValue(...))` in the source; the counts are
non-negative, so `Nat`). -/

inductive SvaExpr where
  | leaf (cond : Sig) : SvaExpr
  | overImpl (a b : SvaExpr) : SvaExpr
  | nonOverImpl (a b : SvaExpr) : SvaExpr
  | seqConcat (attLow attHigh : Nat) (a b : SvaExpr) : SvaExpr
  | consRepeat (attLow attHigh : Nat) (a : SvaExpr) : SvaExpr
  | alwaysP (a : SvaExpr) : SvaExpr
  | implP (a b : SvaExpr) : SvaExpr
  | suffixImpl (a b : SvaExpr) : SvaExpr
  | unsupportedPrim (t : Nat) : SvaExpr
deriving DecidableEq, Repr

/-- Fatal `log_error` exits of the sequence compiler. -/
inductive SvaErr where
  | seqConcatRange : SvaErr
  | consRepeatRange : SvaErr
  | unsupportedPrim (t : Nat) : SvaErr
deriving DecidableEq, Repr

/-- The fields of `VerificSvaImporter` that configure the compilation:
resolved clock and polarity, the `disable iff` signal (`State::S0` when
absent) and the `-k` flag `mode_keep`. -/
structure SvaCfg where
  clock : Sig
  clock_posedge : Bool
  disable_iff : Sig
  mode_keep : Bool
deriving DecidableEq, Repr

/-- `VerificSvaImporter::sequence_t`. -/
structure SeqVal where
  length : Nat
  sig_a : Sig
  sig_en : Sig
deriving DecidableEq, Repr

/-- `VerificSvaImporter::sequence_cond`. -/
def sequence_cond (st : MState) (seq : SeqVal) (cond : Sig) : MState × SeqVal :=
  let p := addAnd st seq.sig_a cond
  (p.1, { seq with sig_a := p.2 })

/-- `VerificSvaImporter::sequence_ff`: one delay-element step.  If a
disable condition is set, the enabled signal is first forced low through
a mux; then one fresh init-zero register is added for the active signal
and one for the enabled signal, both clocked at the resolved clock and
polarity, and the sequence advances to the register outputs. -/
def sequence_ff (cfg : SvaCfg) (st : MState) (seq : SeqVal) : MState × SeqVal :=
  let p0 :=
    if cfg.disable_iff ≠ Sig.s0 then
      let m := addMux st seq.sig_en Sig.s0 cfg.disable_iff
      (m.1, m.2)
    else (st, seq.sig_en)
  let p1 := addWireInit0 p0.1
  let p2 := addWireInit0 p1.1
  let st3 := addDff p2.1 cfg.clock seq.sig_a p1.2 cfg.clock_posedge
  let st4 := addDff st3 cfg.clock p0.2 p2.2 cfg.clock_posedge
  (st4, { length := seq.length + 1, sig_a := p1.2, sig_en := p2.2 })

/-- The `for (int i = 0; i < sva_low; i++) sequence_ff(seq);` loop of the
`PRIM_SVA_SEQ_CONCAT` case. -/
def ffN (cfg : SvaCfg) (st : MState) (seq : SeqVal) : Nat → MState × SeqVal
  | 0 => (st, seq)
  | n + 1 =>
    let p := sequence_ff cfg st seq
    ffN cfg p.1 p.2 n

/-- The repeat loop of the `PRIM_SVA_CONSECUTIVE_REPEAT` case,
`for (int i = 1; i < sva_low; i++) { sequence_ff(seq); parse_sequence(seq, inst->GetInput()); }`:
it runs `sva_low - 1` iterations, each applying one delay-element step
and then recompiling the operand (passed in as `f`) from that state. -/
def parse_repeat (cfg : SvaCfg)
    (f : MState → SeqVal → Except SvaErr (MState × SeqVal)) :
    Nat → MState → SeqVal → Except SvaErr (MState × SeqVal)
  | 0, st, seq => Except.ok (st, seq)
  | n + 1, st, seq =>
    let p := sequence_ff cfg st seq
    match f p.1 p.2 with
    | Except.error e => Except.error e
    | Except.ok (st1, s1) => parse_repeat cfg f n st1 s1

/-- `VerificSvaImporter::parse_sequence` (verific.cc:1563-1657).

Note: in the source both `sva_low` and `sva_high` are read from the
attribute `sva:low` (`atoi(inst->GetAttValue("sva:low"))` on lines
1595-1596 and again on 1612-1613), so the embedded guard compares
`attLow` with `attLow`, exactly as the code does. -/
def parse_sequence (cfg : SvaCfg) :
    SvaExpr → MState → SeqVal → Except SvaErr (MState × SeqVal)
  | SvaExpr.leaf cond, st, seq =>
      Except.ok (sequence_cond st seq cond)
  | SvaExpr.overImpl a b, st, seq =>
      match parse_sequence cfg a st seq with
      | Except.error e => Except.error e
      | Except.ok (st1, s1) =>
        let p := addAnd st1 s1.sig_en s1.sig_a
        parse_sequence cfg b p.1 { s1 with sig_en := p.2 }
  | SvaExpr.nonOverImpl a b, st, seq =>
      match parse_sequence cfg a st seq with
      | Except.error e => Except.error e
      | Except.ok (st1, s1) =>
        let p := addAnd st1 s1.sig_en s1.sig_a
        let q := sequence_ff cfg p.1 { s1 with sig_en := p.2 }
        parse_sequence cfg b q.1 q.2
  | SvaExpr.seqConcat attLow _attHigh a b, st, seq =>
      let sva_low := attLow
      let sva_high := attLow
      if sva_low ≠ sva_high then Except.error SvaErr.seqConcatRange
      else
        match parse_sequence cfg a st seq with
        | Except.error e => Except.error e
        | Except.ok (st1, s1) =>
          let p := ffN cfg st1 s1 sva_low
          parse_sequence cfg b p.1 p.2
  | SvaExpr.consRepeat attLow _attHigh a, st, seq =>
      let sva_low := attLow
      let sva_high := attLow
      if sva_low ≠ sva_high then Except.error SvaErr.consRepeatRange
      else
        match parse_sequence cfg a st seq with
        | Except.error e => Except.error e
        | Except.ok (st1, s1) =>
          parse_repeat cfg (parse_sequence cfg a) (sva_low - 1) st1 s1
  | SvaExpr.alwaysP a, st, seq =>
      parse_sequence cfg a st seq
  | SvaExpr.implP a b, st, seq =>
      match parse_sequence cfg a st seq with
      | Except.error e => Except.error e
      | Except.ok (st1, s1) =>
        let p := addAnd st1 s1.sig_en s1.sig_a
        parse_sequence cfg b p.1 { s1 with sig_en := p.2 }
  | SvaExpr.suffixImpl a b, st, seq =>
      match parse_sequence cfg a st seq with
      | Except.error e => Except.error e
      | Except.ok (st1, s1) =>
        let p := addAnd st1 s1.sig_en s1.sig_a
        let q := sequence_ff cfg p.1 { s1 with sig_en := p.2 }
        parse_sequence cfg b q.1 q.2
  | SvaExpr.unsupportedPrim t, st, seq =>
      if ¬ cfg.mode_keep then Except.error (SvaErr.unsupportedPrim t)
      else Except.ok (st, seq)

/-- The number of delay-element steps (`sequence_ff` invocations) the
compiler performs for a given expression, read off the recursion
structure of `parse_sequence`. -/
def ffSteps : SvaExpr → Nat
  | SvaExpr.leaf _ => 0
  | SvaExpr.overImpl a b => ffSteps a + ffSteps b
  | SvaExpr.nonOverImpl a b => ffSteps a + 1 + ffSteps b
  | SvaExpr.seqConcat attLow _ a b => ffSteps a + attLow + ffSteps b
  | SvaExpr.consRepeat attLow _ a => ffSteps a + (attLow - 1) * (1 + ffSteps a)
  | SvaExpr.alwaysP a => ffSteps a
  | SvaExpr.implP a b => ffSteps a + ffSteps b
  | SvaExpr.suffixImpl a b => ffSteps a + 1 + ffSteps b
  | SvaExpr.unsupportedPrim _ => 0

inductive SvaMode where
  | assertMode : SvaMode
  | assumeMode : SvaMode
  | coverMode : SvaMode
deriving DecidableEq, Repr

/-- `addAssert` / `addAssume` / `addCover` selected by the worker mode. -/
def addConstraint (mode : SvaMode) (st : MState) (a en : Sig) : MState :=
  match mode with
  | SvaMode.assertMode => { st with cells := SCell.assertc a en :: st.cells }
  | SvaMode.assumeMode => { st with cells := SCell.assumec a en :: st.cells }
  | SvaMode.coverMode => { st with cells := SCell.coverc a en :: st.cells }

/-- The tail of `VerificSvaImporter::run` (verific.cc:1687-1699), after
clock-edge resolution and `disable iff` extraction have produced `cfg`:
an empty `sequence_t` is compiled through `parse_sequence`, one more
`sequence_ff` step is applied unconditionally, and a single constraint
cell is emitted on the resulting active/enabled pair. -/
def sva_import_run (cfg : SvaCfg) (st : MState) (e : SvaExpr) (mode : SvaMode) :
    Except SvaErr MState :=
  match parse_sequence cfg e st { length := 0, sig_a := Sig.s1, sig_en := Sig.s1 } with
  | Except.error er => Except.error er
  | Except.ok (st1, s1) =>
    let p := sequence_ff cfg st1 s1
    Except.ok (addConstraint mode p.1 p.2.sig_a p.2.sig_en)

/-! ## Bookkeeping lemmas for the sequence compiler -/

theorem dffCount_addAnd (st : MState) (a b : Sig) :
    dffCount (addAnd st a b).1 = dffCount st := by
  simp [addAnd, addWire, dffCount, List.countP_cons, isDff]

theorem constraintCount_addAnd (st : MState) (a b : Sig) :
    constraintCount (addAnd st a b).1 = constraintCount st := by
  simp [addAnd, addWire, constraintCount, List.countP_cons, isConstraint]

theorem sequence_ff_length (cfg : SvaCfg) (st : MState) (seq : SeqVal) :
    (sequence_ff cfg st seq).2.length = seq.length + 1 := by
  unfold sequence_ff
  by_cases h : cfg.disable_iff = Sig.s0 <;> simp [h]

theorem sequence_ff_dffCount (cfg : SvaCfg) (st : MState) (seq : SeqVal) :
    dffCount (sequence_ff cfg st seq).1 = dffCount st + 2 := by
  unfold sequence_ff addWireInit0 addMux addWire addDff
  by_cases h : cfg.disable_iff = Sig.s0 <;>
    simp [h, dffCount, List.countP_cons, isDff]

theorem sequence_ff_constraintCount (cfg : SvaCfg) (st : MState) (seq : SeqVal) :
    constraintCount (sequence_ff cfg st seq).1 = constraintCount st := by
  unfold sequence_ff addWireInit0 addMux addWire addDff
  by_cases h : cfg.disable_iff = Sig.s0 <;>
    simp [h, constraintCount, List.countP_cons, isConstraint]

/-- Each delay-element step emits exactly one register pair: one clocked
register for the active signal and one for the enabled signal, both at
the resolved clock and polarity, both output wires carrying the
init-zero attribute, and the sequence advances onto those two registers. -/
theorem sequence_ff_pair (cfg : SvaCfg) (st : MState) (seq : SeqVal) :
    ∃ (en : Sig) (i j : Nat) (rest : List SCell),
      (sequence_ff cfg st seq).1.cells =
        SCell.dff cfg.clock en (Sig.wire j) cfg.clock_posedge ::
        SCell.dff cfg.clock seq.sig_a (Sig.wire i) cfg.clock_posedge :: rest ∧
      i ∈ (sequence_ff cfg st seq).1.initZero ∧
      j ∈ (sequence_ff cfg st seq).1.initZero ∧
      (sequence_ff cfg st seq).2.sig_a = Sig.wire i ∧
      (sequence_ff cfg st seq).2.sig_en = Sig.wire j := by
  unfold sequence_ff addWireInit0 addMux addWire addDff
  by_cases h : cfg.disable_iff = Sig.s0
  · exact ⟨seq.sig_en, st.nextId, st.nextId + 1, st.cells, by simp [h]⟩
  · exact ⟨Sig.wire st.nextId, st.nextId + 1, st.nextId + 2,
      SCell.muxc seq.sig_en Sig.s0 cfg.disable_iff (Sig.wire st.nextId) :: st.cells,
      by simp [h]⟩

theorem ffN_spec (cfg : SvaCfg) :
    ∀ (n : Nat) (st : MState) (seq : SeqVal),
      (ffN cfg st seq n).2.length = seq.length + n ∧
      dffCount (ffN cfg st seq n).1 = dffCount st + 2 * n ∧
      constraintCount (ffN cfg st seq n).1 = constraintCount st := by
  intro n
  induction n with
  | zero => intro st seq; simp [ffN]
  | succ m ih =>
    intro st seq
    have h := ih (sequence_ff cfg st seq).1 (sequence_ff cfg st seq).2
    simp only [ffN]
    refine ⟨?_, ?_, ?_⟩
    · rw [h.1, sequence_ff_length]; omega
    · rw [h.2.1, sequence_ff_dffCount]; omega
    · rw [h.2.2, sequence_ff_constraintCount]

/-- Core accounting for `parse_sequence`: a successful compilation of `e`
advances the sequence length by exactly `ffSteps e`, emits exactly
`2 * ffSteps e` clocked registers (one pair per delay-element step), and
emits no constraint cell. -/
theorem parse_sequence_spec :
    ∀ (e : SvaExpr) (cfg : SvaCfg) (st : MState) (seq : SeqVal)
      (st' : MState) (seq' : SeqVal),
      parse_sequence cfg e st seq = Except.ok (st', seq') →
      seq'.length = seq.length + ffSteps e ∧
      dffCount st' = dffCount st + 2 * ffSteps e ∧
      constraintCount st' = constraintCount st := by
  intro e
  induction e with
  | leaf c =>
    intro cfg st seq st' seq' h
    simp only [parse_sequence, sequence_cond] at h
    cases h
    simp [ffSteps, dffCount_addAnd, constraintCount_addAnd]
  | overImpl a b iha ihb =>
    intro cfg st seq st' seq' h
    simp only [parse_sequence] at h
    cases ha : parse_sequence cfg a st seq with
    | error e0 => rw [ha] at h; exact absurd h (by simp)
    | ok p =>
      obtain ⟨st1, s1⟩ := p
      rw [ha] at h
      simp only at h
      have h1 := iha cfg st seq st1 s1 ha
      have h2 := ihb cfg (addAnd st1 s1.sig_en s1.sig_a).1
        { s1 with sig_en := (addAnd st1 s1.sig_en s1.sig_a).2 } st' seq' h
      refine ⟨?_, ?_, ?_⟩
      · rw [h2.1]; simp only [ffSteps]; rw [h1.1]; omega
      · rw [h2.2.1, dffCount_addAnd, h1.2.1]; simp only [ffSteps]; omega
      · rw [h2.2.2, constraintCount_addAnd, h1.2.2]
  | nonOverImpl a b iha ihb =>
    intro cfg st seq st' seq' h
    simp only [parse_sequence] at h
    cases ha : parse_sequence cfg a st seq with
    | error e0 => rw [ha] at h; exact absurd h (by simp)
    | ok p =>
      obtain ⟨st1, s1⟩ := p
      rw [ha] at h
      simp only at h
      have h1 := iha cfg st seq st1 s1 ha
      set mid := sequence_ff cfg (addAnd st1 s1.sig_en s1.sig_a).1
        { s1 with sig_en := (addAnd st1 s1.sig_en s1.sig_a).2 } with hmid
      have h2 := ihb cfg mid.1 mid.2 st' seq' h
      refine ⟨?_, ?_, ?_⟩
      · rw [h2.1, hmid, sequence_ff_length]; simp only [ffSteps]; rw [h1.1]; omega
      · rw [h2.2.1, hmid, sequence_ff_dffCount, dffCount_addAnd, h1.2.1]
        simp only [ffSteps]; omega
      · rw [h2.2.2, hmid, sequence_ff_constraintCount, constraintCount_addAnd, h1.2.2]
  | seqConcat lo hi a b iha ihb =>
    intro cfg st seq st' seq' h
    simp only [parse_sequence] at h
    rw [if_neg (fun hc => hc rfl)] at h
    cases ha : parse_sequence cfg a st seq with
    | error e0 => rw [ha] at h; exact absurd h (by simp)
    | ok p =>
      obtain ⟨st1, s1⟩ := p
      rw [ha] at h
      simp only at h
      have h1 := iha cfg st seq st1 s1 ha
      have hffn := ffN_spec cfg lo st1 s1
      have h2 := ihb cfg (ffN cfg st1 s1 lo).1 (ffN cfg st1 s1 lo).2 st' seq' h
      refine ⟨?_, ?_, ?_⟩
      · rw [h2.1, hffn.1, h1.1]; simp only [ffSteps]; omega
      · rw [h2.2.1, hffn.2.1, h1.2.1]; simp only [ffSteps]; omega
      · rw [h2.2.2, hffn.2.2, h1.2.2]
  | consRepeat lo hi a iha =>
    intro cfg st seq st' seq' h
    simp only [parse_sequence] at h
    rw [if_neg (fun hc => hc rfl)] at h
    cases ha : parse_sequence cfg a st seq with
    | error e0 => rw [ha] at h; exact absurd h (by simp)
    | ok p =>
      obtain ⟨st1, s1⟩ := p
      rw [ha] at h
      simp only at h
      have h1 := iha cfg st seq st1 s1 ha
      have hrep :
          ∀ (n : Nat) (st0 : MState) (s0 : SeqVal) (st2 : MState) (s2 : SeqVal),
            parse_repeat cfg (parse_sequence cfg a) n st0 s0 = Except.ok (st2, s2) →
            s2.length = s0.length + n * (1 + ffSteps a) ∧
            dffCount st2 = dffCount st0 + 2 * (n * (1 + ffSteps a)) ∧
            constraintCount st2 = constraintCount st0 := by
        intro n
        induction n with
        | zero =>
          intro st0 s0 st2 s2 hr
          simp only [parse_repeat] at hr
          cases hr; simp
        | succ m ihm =>
          intro st0 s0 st2 s2 hr
          simp only [parse_repeat] at hr
          cases hb : parse_sequence cfg a (sequence_ff cfg st0 s0).1
              (sequence_ff cfg st0 s0).2 with
          | error e0 => rw [hb] at hr; exact absurd hr (by simp)
          | ok q =>
            obtain ⟨st3, s3⟩ := q
            rw [hb] at hr
            simp only at hr
            have hstep := iha cfg (sequence_ff cfg st0 s0).1
              (sequence_ff cfg st0 s0).2 st3 s3 hb
            have htail := ihm st3 s3 st2 s2 hr
            refine ⟨?_, ?_, ?_⟩
            · rw [htail.1, hstep.1, sequence_ff_length]; ring
            · rw [htail.2.1, hstep.2.1, sequence_ff_dffCount]; ring
            · rw [htail.2.2, hstep.2.2, sequence_ff_constraintCount]
      have h2 := hrep (lo - 1) st1 s1 st' seq' h
      refine ⟨?_, ?_, ?_⟩
      · rw [h2.1, h1.1]; simp only [ffSteps]; omega
      · rw [h2.2.1, h1.2.1]; simp only [ffSteps]; omega
      · rw [h2.2.2, h1.2.2]
  | alwaysP a iha =>
    intro cfg st seq st' seq' h
    simp only [parse_sequence] at h
    exact iha cfg st seq st' seq' h
  | implP a b iha ihb =>
    intro cfg st seq st' seq' h
    simp only [parse_sequence] at h
    cases ha : parse_sequence cfg a st seq with
    | error e0 => rw [ha] at h; exact absurd h (by simp)
    | ok p =>
      obtain ⟨st1, s1⟩ := p
      rw [ha] at h
      simp only at h
      have h1 := iha cfg st seq st1 s1 ha
      have h2 := ihb cfg (addAnd st1 s1.sig_en s1.sig_a).1
        { s1 with sig_en := (addAnd st1 s1.sig_en s1.sig_a).2 } st' seq' h
      refine ⟨?_, ?_, ?_⟩
      · rw [h2.1]; simp only [ffSteps]; rw [h1.1]; omega
      · rw [h2.2.1, dffCount_addAnd, h1.2.1]; simp only [ffSteps]; omega
      · rw [h2.2.2, constraintCount_addAnd, h1.2.2]
  | suffixImpl a b iha ihb =>
    intro cfg st seq st' seq' h
    simp only [parse_sequence] at h
    cases ha : parse_sequence cfg a st seq with
    | error e0 => rw [ha] at h; exact absurd h (by simp)
    | ok p =>
      obtain ⟨st1, s1⟩ := p
      rw [ha] at h
      simp only at h
      have h1 := iha cfg st seq st1 s1 ha
      set mid := sequence_ff cfg (addAnd st1 s1.sig_en s1.sig_a).1
        { s1 with sig_en := (addAnd st1 s1.sig_en s1.sig_a).2 } with hmid
      have h2 := ihb cfg mid.1 mid.2 st' seq' h
      refine ⟨?_, ?_, ?_⟩
      · rw [h2.1, hmid, sequence_ff_length]; simp only [ffSteps]; rw [h1.1]; omega
      · rw [h2.2.1, hmid, sequence_ff_dffCount, dffCount_addAnd, h1.2.1]
        simp only [ffSteps]; omega
      · rw [h2.2.2, hmid, sequence_ff_constraintCount, constraintCount_addAnd, h1.2.2]
  | unsupportedPrim t =>
    intro cfg st seq st' seq' h
    simp only [parse_sequence] at h
    by_cases hk : cfg.mode_keep
    · rw [if_neg (by simpa using hk)] at h
      cases h; simp [ffSteps]
    · rw [if_pos (by simpa using hk)] at h
      exact absurd h (by simp)

theorem dffCount_addConstraint (mode : SvaMode) (st : MState) (a en : Sig) :
    dffCount (addConstraint mode st a en) = dffCount st := by
  cases mode <;> simp [addConstraint, dffCount, List.countP_cons, isDff]

theorem constraintCount_addConstraint (mode : SvaMode) (st : MState) (a en : Sig) :
    constraintCount (addConstraint mode st a en) = constraintCount st + 1 := by
  cases mode <;> simp [addConstraint, constraintCount, List.countP_cons, isConstraint]

/-- C2: compiling a non-overlapped implication inserts exactly one
delay-element step between the antecedent and the consequent (on top of
the steps of the two operands); a sequence concatenation with fixed delay
N inserts exactly N such steps between its operands; each step is one
clocked register pair for the active and enabled signals, both
initialized to false; and after the full sequence is compiled, exactly
one additional step is applied unconditionally before the single
constraint cell is emitted. -/
theorem C2_delay_element_counts :
    (∀ (cfg : SvaCfg) (a b : SvaExpr) (st st' : MState) (seq seq' : SeqVal),
        parse_sequence cfg (SvaExpr.nonOverImpl a b) st seq = Except.ok (st', seq') →
        seq'.length = seq.length + (ffSteps a + 1 + ffSteps b) ∧
        dffCount st' = dffCount st + 2 * (ffSteps a + 1 + ffSteps b)) ∧
    (∀ (cfg : SvaCfg) (n : Nat) (a b : SvaExpr) (st st' : MState) (seq seq' : SeqVal),
        parse_sequence cfg (SvaExpr.seqConcat n n a b) st seq = Except.ok (st', seq') →
        seq'.length = seq.length + (ffSteps a + n + ffSteps b) ∧
        dffCount st' = dffCount st + 2 * (ffSteps a + n + ffSteps b)) ∧
    (∀ (cfg : SvaCfg) (st : MState) (seq : SeqVal),
        (sequence_ff cfg st seq).2.length = seq.length + 1 ∧
        dffCount (sequence_ff cfg st seq).1 = dffCount st + 2 ∧
        ∃ (en : Sig) (i j : Nat) (rest : List SCell),
          (sequence_ff cfg st seq).1.cells =
            SCell.dff cfg.clock en (Sig.wire j) cfg.clock_posedge ::
            SCell.dff cfg.clock seq.sig_a (Sig.wire i) cfg.clock_posedge :: rest ∧
          i ∈ (sequence_ff cfg st seq).1.initZero ∧
          j ∈ (sequence_ff cfg st seq).1.initZero ∧
          (sequence_ff cfg st seq).2.sig_a = Sig.wire i ∧
          (sequence_ff cfg st seq).2.sig_en = Sig.wire j) ∧
    (∀ (cfg : SvaCfg) (st st' : MState) (e : SvaExpr) (mode : SvaMode),
        sva_import_run cfg st e mode = Except.ok st' →
        dffCount st' = dffCount st + 2 * (ffSteps e + 1) ∧
        constraintCount st' = constraintCount st + 1) := by
  refine ⟨?_, ?_, ?_, ?_⟩
  · intro cfg a b st st' seq seq' h
    have h1 := parse_sequence_spec (SvaExpr.nonOverImpl a b) cfg st seq st' seq' h
    simpa [ffSteps] using ⟨h1.1, h1.2.1⟩
  · intro cfg n a b st st' seq seq' h
    have h1 := parse_sequence_spec (SvaExpr.seqConcat n n a b) cfg st seq st' seq' h
    simpa [ffSteps] using ⟨h1.1, h1.2.1⟩
  · intro cfg st seq
    exact ⟨sequence_ff_length cfg st seq, sequence_ff_dffCount cfg st seq,
      sequence_ff_pair cfg st seq⟩
  · intro cfg st st' e mode h
    unfold sva_import_run at h
    cases hp : parse_sequence cfg e st { length := 0, sig_a := Sig.s1, sig_en := Sig.s1 } with
    | error e0 => rw [hp] at h; exact absurd h (by simp)
    | ok p =>
      obtain ⟨st1, s1⟩ := p
      rw [hp] at h
      simp only at h
      have h1 := parse_sequence_spec e cfg st _ st1 s1 hp
      cases h
      constructor
      · rw [dffCount_addConstraint, sequence_ff_dffCount, h1.2.1]; omega
      · rw [constraintCount_addConstraint, sequence_ff_constraintCount, h1.2.2]

/-- Concrete data for the C2 witness: an import state, an empty sequence
value and the compilation result of `(wire 1) |=> (wire 2)`. -/
def cfgW : SvaCfg :=
  { clock := Sig.wire 0, clock_posedge := true, disable_iff := Sig.s0, mode_keep := false }

def stW : MState := { nextId := 10, cells := [], initZero := [] }

def seqW : SeqVal := { length := 0, sig_a := Sig.s1, sig_en := Sig.s1 }

def stX : MState :=
  { nextId := 15,
    cells := [
      SCell.andc (Sig.wire 12) (Sig.wire 2) (Sig.wire 14),
      SCell.dff (Sig.wire 0) (Sig.wire 11) (Sig.wire 13) true,
      SCell.dff (Sig.wire 0) (Sig.wire 10) (Sig.wire 12) true,
      SCell.andc Sig.s1 (Sig.wire 10) (Sig.wire 11),
      SCell.andc Sig.s1 (Sig.wire 1) (Sig.wire 10)],
    initZero := [13, 12] }

def seqX : SeqVal := { length := 1, sig_a := Sig.wire 14, sig_en := Sig.wire 13 }

/-- Witness for C2: compiling the non-overlapped implication
`(wire 1) |=> (wire 2)` from an empty sequence yields length 1 and two
clocked registers, as the claim theorem predicts. -/
theorem C2_delay_element_counts_witness :
    parse_sequence cfgW
      (SvaExpr.nonOverImpl (SvaExpr.leaf (Sig.wire 1)) (SvaExpr.leaf (Sig.wire 2)))
      stW seqW = Except.ok (stX, seqX) ∧
    seqX.length = seqW.length +
      (ffSteps (SvaExpr.leaf (Sig.wire 1)) + 1 + ffSteps (SvaExpr.leaf (Sig.wire 2))) ∧
    dffCount stX = dffCount stW +
      2 * (ffSteps (SvaExpr.leaf (Sig.wire 1)) + 1 + ffSteps (SvaExpr.leaf (Sig.wire 2))) :=
  ⟨rfl, C2_delay_element_counts.1 cfgW
    (SvaExpr.leaf (Sig.wire 1)) (SvaExpr.leaf (Sig.wire 2)) stW stX seqW seqX rfl⟩

/-- The state produced by compiling the C3 failing input
`seqConcat` with attributes `sva:low = 1`, `sva:high = 2`. -/
def stY : MState :=
  { nextId := 14,
    cells := [
      SCell.andc (Sig.wire 11) (Sig.wire 2) (Sig.wire 13),
      SCell.dff (Sig.wire 0) Sig.s1 (Sig.wire 12) true,
      SCell.dff (Sig.wire 0) (Sig.wire 10) (Sig.wire 11) true,
      SCell.andc Sig.s1 (Sig.wire 1) (Sig.wire 10)],
    initZero := [12, 11] }

def seqY : SeqVal := { length := 1, sig_a := Sig.wire 13, sig_en := Sig.wire 12 }

/-- C3 (code bug): the source reads the attribute `sva:low` both for
`sva_low` and for `sva_high` (verific.cc:1595-1596 and 1612-1613), so
the unsupported-range check can never fire.  A concatenation node with
`sva:low = 1`, `sva:high = 2` compiles successfully as a fixed one-cycle
delay instead of raising the fatal unsupported-range error, and the
compilation result of a concatenation or consecutive-repetition node is
entirely independent of the `sva:high` attribute. -/
theorem C3_range_check_unreachable :
    (parse_sequence cfgW
        (SvaExpr.seqConcat 1 2 (SvaExpr.leaf (Sig.wire 1)) (SvaExpr.leaf (Sig.wire 2)))
        stW seqW = Except.ok (stY, seqY) ∧ seqY.length = 1) ∧
    (∀ (cfg : SvaCfg) (lo hi hi2 : Nat) (a b : SvaExpr) (st : MState) (seq : SeqVal),
        parse_sequence cfg (SvaExpr.seqConcat lo hi a b) st seq =
        parse_sequence cfg (SvaExpr.seqConcat lo hi2 a b) st seq) ∧
    (∀ (cfg : SvaCfg) (lo hi hi2 : Nat) (a : SvaExpr) (st : MState) (seq : SeqVal),
        parse_sequence cfg (SvaExpr.consRepeat lo hi a) st seq =
        parse_sequence cfg (SvaExpr.consRepeat lo hi2 a) st seq) := by
  refine ⟨⟨rfl, rfl⟩, ?_, ?_⟩
  · intro cfg lo hi hi2 a b st seq
    simp only [parse_sequence]
  · intro cfg lo hi hi2 a st seq
    simp only [parse_sequence]

/-! ## The clock-edge resolver (`VerificClockEdge`, verific.cc:1280-1367)

The relevant slice of the Verific source graph: nets with an optional
single driver and a multiply-driven flag, and instances with a type tag
and the input accessors the resolver uses (`GetInput`, `GetInput1`,
`GetInput2`, `GetInputBit(0)`, `InputSize`).  Nets and instances are
identified by `Nat` handles; `g.net` and `g.inst` are the dereference
operations. -/

inductive CEType where
  | svaPosedge : CEType
  | primAnd : CEType
  | primInv : CEType
  | operPslPrev : CEType
  | other (t : Nat) : CEType
deriving DecidableEq, Repr

structure CENet where
  multiDriven : Bool
  driver : Option Nat
deriving DecidableEq, Repr

structure CEInst where
  type : CEType
  input : Nat
  input1 : Nat
  input2 : Nat
  inputBit0 : Nat
  inputSize : Nat
deriving DecidableEq, Repr

structure CEGraph where
  net : Nat → CENet
  inst : Nat → CEInst

/-- `verific_follow_inv` (verific.cc:1280-1290). -/
def verific_follow_inv (g : CEGraph) : Option Nat → Option Nat
  | none => none
  | some w =>
    if (g.net w).multiDriven then none
    else
      match (g.net w).driver with
      | none => none
      | some i =>
        if (g.inst i).type = CEType.primInv then some ((g.inst i).input) else none

/-- `verific_follow_pslprev` (verific.cc:1292-1302). -/
def verific_follow_pslprev (g : CEGraph) : Option Nat → Option Nat
  | none => none
  | some w =>
    if (g.net w).multiDriven then none
    else
      match (g.net w).driver with
      | none => none
      | some i =>
        if (g.inst i).type = CEType.operPslPrev ∧ (g.inst i).inputSize = 1
        then some ((g.inst i).inputBit0) else none

/-- `verific_follow_inv_pslprev` (verific.cc:1304-1308). -/
def verific_follow_inv_pslprev (g : CEGraph) (w : Option Nat) : Option Nat :=
  verific_follow_pslprev g (verific_follow_inv g w)

/-- Outcome of running the `VerificClockEdge` constructor: either the
`clock_net` / `posedge` fields are set and the constructor returns,
or `log_abort()` is reached, or the constructor body falls through its
two `if` statements and returns with the fields never assigned. -/
inductive CEResult where
  | ok (clock_net : Option Nat) (posedge : Bool) : CEResult
  | aborted : CEResult
  | fellThrough : CEResult
deriving DecidableEq, Repr

/-- `VerificClockEdge::VerificClockEdge` (verific.cc:1310-1367). -/
def VerificClockEdge_run (g : CEGraph) (instId : Nat) : CEResult :=
  let inst := g.inst instId
  if inst.type = CEType.svaPosedge then
    let clock_net := inst.input
    match (g.net clock_net).driver with
    | some d =>
      if ¬ (g.net clock_net).multiDriven ∧ (g.inst d).type = CEType.primInv
      then CEResult.ok (some ((g.inst d).input)) false
      else CEResult.ok (some clock_net) true
    | none => CEResult.ok (some clock_net) true
  else if inst.type = CEType.primAnd then
    let w1 := inst.input1
    let w2 := inst.input2
    let c1 := verific_follow_inv_pslprev g (some w1)
    if c1 = some w2 then CEResult.ok c1 true
    else
      let c2 := verific_follow_inv_pslprev g (some w2)
      if c2 = some w1 then CEResult.ok c2 true
      else
        let c3 := verific_follow_pslprev g (some w1)
        if c3 = verific_follow_inv g (some w2) then CEResult.ok c3 false
        else
          let c4 := verific_follow_pslprev g (some w2)
          if c4 = verific_follow_inv g (some w1) then CEResult.ok c4 false
          else CEResult.aborted
  else CEResult.fellThrough

/-- C5: for an edge-operator node wrapping signal S directly (S has no
sole inverter driver), the resolver returns clock S with positive
polarity; when the node input is a net solely driven by an inverter
whose input is S, it returns clock S with negative polarity. -/
theorem C5_clock_polarity :
    (∀ (g : CEGraph) (i s : Nat),
        (g.inst i).type = CEType.svaPosedge →
        (g.inst i).input = s →
        (∀ d, (g.net s).driver = some d → (g.inst d).type ≠ CEType.primInv) →
        VerificClockEdge_run g i = CEResult.ok (some s) true) ∧
    (∀ (g : CEGraph) (i w s d : Nat),
        (g.inst i).type = CEType.svaPosedge →
        (g.inst i).input = w →
        (g.net w).multiDriven = false →
        (g.net w).driver = some d →
        (g.inst d).type = CEType.primInv →
        (g.inst d).input = s →
        VerificClockEdge_run g i = CEResult.ok (some s) false) := by
  constructor
  · intro g i s htype hinput hnoinv
    simp only [VerificClockEdge_run, htype, hinput, if_pos rfl]
    cases hd : (g.net s).driver with
    | none => simp
    | some d =>
      have := hnoinv d hd
      simp [this]
  · intro g i w s d htype hinput hmd hdrv hinv hinvin
    simp only [VerificClockEdge_run, htype, hinput, hdrv, if_pos rfl]
    simp [hmd, hinv, hinvin]

/-- A concrete graph exercising both C5 cases: instance 0 is an edge
operator on net 1, which is solely driven by the inverter instance 1
with input net 2; instance 2 is an edge operator on net 3, which has no
driver. -/
def gClk : CEGraph :=
  { net := fun n =>
      if n = 1 then { multiDriven := false, driver := some 1 }
      else { multiDriven := false, driver := none },
    inst := fun i =>
      if i = 0 then
        { type := CEType.svaPosedge, input := 1, input1 := 0, input2 := 0,
          inputBit0 := 0, inputSize := 1 }
      else if i = 1 then
        { type := CEType.primInv, input := 2, input1 := 0, input2 := 0,
          inputBit0 := 0, inputSize := 1 }
      else
        { type := CEType.svaPosedge, input := 3, input1 := 0, input2 := 0,
          inputBit0 := 0, inputSize := 1 } }

/-- Witness for C5 on `gClk`: the direct wrap yields (net 3, positive),
the inverter-guarded wrap yields (net 2, negative). -/
theorem C5_clock_polarity_witness :
    VerificClockEdge_run gClk 2 = CEResult.ok (some 3) true ∧
    VerificClockEdge_run gClk 0 = CEResult.ok (some 2) false :=
  ⟨C5_clock_polarity.1 gClk 2 3 rfl rfl
      (fun d hd => by simp [gClk] at hd),
   C5_clock_polarity.2 gClk 0 1 2 1 rfl rfl rfl rfl rfl rfl⟩

/-- A node that matches neither recognized idiom: its type is neither
the edge operator nor a conjunction. -/
def gOther : CEGraph :=
  { net := fun _ => { multiDriven := false, driver := none },
    inst := fun _ =>
      { type := CEType.other 7, input := 0, input1 := 0, input2 := 0,
        inputBit0 := 0, inputSize := 1 } }

/-- Counterexample to C6 as stated: a node of a type that matches
neither idiom does not reach `log_abort()`; the constructor simply
falls through and returns with the clock/polarity fields never set
(there is no code after the two `if` blocks in verific.cc:1310-1367). -/
theorem C6_no_abort_counterexample :
    VerificClockEdge_run gOther 0 ≠ CEResult.aborted ∧
    VerificClockEdge_run gOther 0 = CEResult.fellThrough := by
  constructor
  · intro h
    exact absurd h (by decide)
  · rfl

/-- C6 (amended): only a conjunction node that matches neither of the
four dual-rail sampled-previous-value patterns raises the hard internal
error (`log_abort`); a node that is neither the edge operator nor a
conjunction returns without raising an error and without producing a
(clock, polarity) result. -/
theorem C6_abort_amended :
    (∀ (g : CEGraph) (i : Nat),
        (g.inst i).type = CEType.primAnd →
        verific_follow_inv_pslprev g (some ((g.inst i).input1)) ≠ some ((g.inst i).input2) →
        verific_follow_inv_pslprev g (some ((g.inst i).input2)) ≠ some ((g.inst i).input1) →
        verific_follow_pslprev g (some ((g.inst i).input1)) ≠
          verific_follow_inv g (some ((g.inst i).input2)) →
        verific_follow_pslprev g (some ((g.inst i).input2)) ≠
          verific_follow_inv g (some ((g.inst i).input1)) →
        VerificClockEdge_run g i = CEResult.aborted) ∧
    (∀ (g : CEGraph) (i : Nat),
        (g.inst i).type ≠ CEType.svaPosedge →
        (g.inst i).type ≠ CEType.primAnd →
        VerificClockEdge_run g i = CEResult.fellThrough) := by
  constructor
  · intro g i htype h1 h2 h3 h4
    simp only [VerificClockEdge_run, htype]
    simp [h1, h2, h3, h4]
  · intro g i h1 h2
    simp only [VerificClockEdge_run]
    simp [h1, h2]

/-- A conjunction node whose two inputs are nets driven by plain
inverters of two distinct undriven nets, so all four dual-rail patterns
fail (the sampled-previous-value chains on each side yield nothing,
while the inverter chains yield two different nets). -/
def gAnd : CEGraph :=
  { net := fun n =>
      if n = 4 then { multiDriven := false, driver := some 2 }
      else if n = 5 then { multiDriven := false, driver := some 3 }
      else { multiDriven := false, driver := none },
    inst := fun i =>
      if i = 0 then
        { type := CEType.primAnd, input := 0, input1 := 4, input2 := 5,
          inputBit0 := 0, inputSize := 1 }
      else if i = 2 then
        { type := CEType.primInv, input := 7, input1 := 0, input2 := 0,
          inputBit0 := 0, inputSize := 1 }
      else if i = 3 then
        { type := CEType.primInv, input := 6, input1 := 0, input2 := 0,
          inputBit0 := 0, inputSize := 1 }
      else
        { type := CEType.other 3, input := 0, input1 := 0, input2 := 0,
          inputBit0 := 0, inputSize := 1 } }

/-- Witness for the amended C6: on `gAnd`, the failing conjunction
aborts and the unrecognized node falls through. -/
theorem C6_abort_amended_witness :
    VerificClockEdge_run gAnd 0 = CEResult.aborted ∧
    VerificClockEdge_run gAnd 1 = CEResult.fellThrough :=
  ⟨C6_abort_amended.1 gAnd 0 rfl
      (by decide) (by decide) (by decide) (by decide),
   C6_abort_amended.2 gAnd 1 (by decide) (by decide)⟩

/-! ## The `PRIM_DFFRS` lowering (C7)

`import_netlist_instance_gates` (verific.cc:351-365) and
`import_netlist_instance_cells` (verific.cc:432-446) both dispatch on
whether the set and reset nets are constant zero (`IsGnd`). -/

structure DffrsInst where
  setIsGnd : Bool
  resetIsGnd : Bool
  clock : Sig
  set : Sig
  reset : Sig
  input : Sig
  output : Sig
deriving DecidableEq, Repr

inductive FfCell where
  | dffGate (clk d q : Sig) : FfCell
  | adffGate (clk arst d q : Sig) (arst_value : Bool) : FfCell
  | dffsrGate (clk set reset d q : Sig) : FfCell
  | dff (clk d q : Sig) : FfCell
  | adff (clk arst d q : Sig) (arst_value : Sig) : FfCell
  | dffsr (clk set reset d q : Sig) : FfCell
deriving DecidableEq, Repr

/-- The `PRIM_DFFRS` branch of `import_netlist_instance_gates`
(verific.cc:351-365). -/
def import_dffrs_gates (i : DffrsInst) : FfCell :=
  if i.setIsGnd ∧ i.resetIsGnd then
    FfCell.dffGate i.clock i.input i.output
  else if i.setIsGnd then
    FfCell.adffGate i.clock i.reset i.input i.output false
  else if i.resetIsGnd then
    FfCell.adffGate i.clock i.set i.input i.output true
  else
    FfCell.dffsrGate i.clock i.set i.reset i.input i.output

/-- The `PRIM_DFFRS` branch of `import_netlist_instance_cells`
(verific.cc:432-446). -/
def import_dffrs_cells (i : DffrsInst) : FfCell :=
  if i.setIsGnd ∧ i.resetIsGnd then
    FfCell.dff i.clock i.input i.output
  else if i.setIsGnd then
    FfCell.adff i.clock i.reset i.input i.output Sig.s0
  else if i.resetIsGnd then
    FfCell.adff i.clock i.set i.input i.output Sig.s1
  else
    FfCell.dffsr i.clock i.set i.reset i.input i.output

/-- C7: with both set and reset constant zero the flip-flop degenerates
to a plain edge-triggered register; with exactly one of them constant
zero it degenerates to an asynchronous reset-only (or set-only)
register; otherwise a register with both set and reset is emitted — in
the gate-level and in the cell-level lowering mode alike. -/
theorem C7_dffrs_degeneration :
    (∀ i : DffrsInst, i.setIsGnd = true → i.resetIsGnd = true →
        import_dffrs_gates i = FfCell.dffGate i.clock i.input i.output ∧
        import_dffrs_cells i = FfCell.dff i.clock i.input i.output) ∧
    (∀ i : DffrsInst, i.setIsGnd = true → i.resetIsGnd = false →
        import_dffrs_gates i = FfCell.adffGate i.clock i.reset i.input i.output false ∧
        import_dffrs_cells i = FfCell.adff i.clock i.reset i.input i.output Sig.s0) ∧
    (∀ i : DffrsInst, i.setIsGnd = false → i.resetIsGnd = true →
        import_dffrs_gates i = FfCell.adffGate i.clock i.set i.input i.output true ∧
        import_dffrs_cells i = FfCell.adff i.clock i.set i.input i.output Sig.s1) ∧
    (∀ i : DffrsInst, i.setIsGnd = false → i.resetIsGnd = false →
        import_dffrs_gates i = FfCell.dffsrGate i.clock i.set i.reset i.input i.output ∧
        import_dffrs_cells i = FfCell.dffsr i.clock i.set i.reset i.input i.output) := by
  refine ⟨?_, ?_, ?_, ?_⟩ <;>
    intro i hs hr <;>
    constructor <;>
    simp [import_dffrs_gates, import_dffrs_cells, hs, hr]

def dffrs00 : DffrsInst :=
  { setIsGnd := true, resetIsGnd := true, clock := Sig.wire 0, set := Sig.s0,
    reset := Sig.s0, input := Sig.wire 1, output := Sig.wire 2 }

def dffrs01 : DffrsInst := { dffrs00 with resetIsGnd := false, reset := Sig.wire 3 }

def dffrs10 : DffrsInst := { dffrs00 with setIsGnd := false, set := Sig.wire 4 }

def dffrs11 : DffrsInst := { dffrs01 with setIsGnd := false, set := Sig.wire 4 }

/-- Witness for C7 at all four constant-zero combinations. -/
theorem C7_dffrs_degeneration_witness :
    (import_dffrs_gates dffrs00 = FfCell.dffGate dffrs00.clock dffrs00.input dffrs00.output ∧
      import_dffrs_cells dffrs00 = FfCell.dff dffrs00.clock dffrs00.input dffrs00.output) ∧
    (import_dffrs_gates dffrs01 =
        FfCell.adffGate dffrs01.clock dffrs01.reset dffrs01.input dffrs01.output false ∧
      import_dffrs_cells dffrs01 =
        FfCell.adff dffrs01.clock dffrs01.reset dffrs01.input dffrs01.output Sig.s0) ∧
    (import_dffrs_gates dffrs10 =
        FfCell.adffGate dffrs10.clock dffrs10.set dffrs10.input dffrs10.output true ∧
      import_dffrs_cells dffrs10 =
        FfCell.adff dffrs10.clock dffrs10.set dffrs10.input dffrs10.output Sig.s1) ∧
    (import_dffrs_gates dffrs11 =
        FfCell.dffsrGate dffrs11.clock dffrs11.set dffrs11.reset dffrs11.input dffrs11.output ∧
      import_dffrs_cells dffrs11 =
        FfCell.dffsr dffrs11.clock dffrs11.set dffrs11.reset dffrs11.input dffrs11.output) :=
  ⟨C7_dffrs_degeneration.1 dffrs00 rfl rfl,
   C7_dffrs_degeneration.2.1 dffrs01 rfl rfl,
   C7_dffrs_degeneration.2.2.1 dffrs10 rfl rfl,
   C7_dffrs_degeneration.2.2.2 dffrs11 rfl rfl⟩

/-! ## The sequence preprocessor (`VerificSvaPP`, verific.cc:1371-1483)

The property AST the preprocessor walks, as seen through its
`net_to_ast_driver` accessors.  `impl_to_seq` is the single rewrite the
component knows; in `run()` its invocation is commented out
(`// impl_to_seq(root);`, verific.cc:1454). -/

inductive PPExpr where
  | leafNet (n : Nat) : PPExpr
  | assertP (a : PPExpr) : PPExpr
  | assumeP (a : PPExpr) : PPExpr
  | coverP (a : PPExpr) : PPExpr
  | atP (a b : PPExpr) : PPExpr
  | nonOverImplP (a b : PPExpr) : PPExpr
  | seqConcatP (a b : PPExpr) : PPExpr
  | otherPrim (t : Nat) : PPExpr
deriving DecidableEq, Repr

/-- `VerificSvaPP::impl_to_seq` (verific.cc:1412-1447), functionally: the
first component is the node with any reconnections applied inside, the
second is the replacement net returned to the caller (`nullptr` is
`none`).  Only under `mode_cover` does a non-overlapped implication get
rewritten into a sequence concatenation. -/
def impl_to_seq (mode_cover : Bool) : PPExpr → PPExpr × Option PPExpr
  | PPExpr.assertP a =>
    let p := impl_to_seq mode_cover a
    (PPExpr.assertP (p.2.getD p.1), none)
  | PPExpr.assumeP a =>
    let p := impl_to_seq mode_cover a
    (PPExpr.assumeP (p.2.getD p.1), none)
  | PPExpr.coverP a =>
    let p := impl_to_seq mode_cover a
    (PPExpr.coverP (p.2.getD p.1), none)
  | PPExpr.atP a b =>
    let p := impl_to_seq mode_cover b
    (PPExpr.atP a (p.2.getD p.1), none)
  | PPExpr.nonOverImplP a b =>
    if mode_cover then
      let p1 := impl_to_seq mode_cover a
      let p2 := impl_to_seq mode_cover b
      (PPExpr.nonOverImplP p1.1 p2.1,
       some (PPExpr.seqConcatP (p1.2.getD p1.1) (p2.2.getD p2.1)))
    else (PPExpr.nonOverImplP a b, none)
  | e => (e, none)

/-- The fields of `VerificSvaPP` that matter to the claims: the root
property AST it was handed and the worker bookkeeping set by `run`. -/
structure SvaPPWorker where
  root : PPExpr
  module : Option Nat
  netlist : Option Nat
  mode_assert : Bool
  mode_assume : Bool
  mode_cover : Bool
deriving DecidableEq, Repr

/-- `VerificSvaPP::run` (verific.cc:1449-1455): it assigns the worker's
`module` and `netlist` fields and returns; the call `impl_to_seq(root)`
on the next line is commented out in the source, so the property AST is
never touched. -/
def svaPP_run (w : SvaPPWorker) (importerModule rootOwner : Nat) : SvaPPWorker :=
  { w with module := some importerModule, netlist := some rootOwner }

/-- `svapp_assert` (verific.cc:1458-1465). -/
def svapp_assert (root : PPExpr) (importerModule rootOwner : Nat) : SvaPPWorker :=
  svaPP_run
    { root := root, module := none, netlist := none,
      mode_assert := true, mode_assume := false, mode_cover := false }
    importerModule rootOwner

/-- `svapp_assume` (verific.cc:1467-1474). -/
def svapp_assume (root : PPExpr) (importerModule rootOwner : Nat) : SvaPPWorker :=
  svaPP_run
    { root := root, module := none, netlist := none,
      mode_assert := false, mode_assume := true, mode_cover := false }
    importerModule rootOwner

/-- `svapp_cover` (verific.cc:1476-1483). -/
def svapp_cover (root : PPExpr) (importerModule rootOwner : Nat) : SvaPPWorker :=
  svaPP_run
    { root := root, module := none, netlist := none,
      mode_assert := false, mode_assume := false, mode_cover := true }
    importerModule rootOwner

/-- C10: the sequence-preprocessing pass leaves every property AST
unchanged, for assert, assume and cover properties alike — its one
recognized rewrite (`impl_to_seq`) is never invoked by `run`, and no
other expression shape is altered either. -/
theorem C10_svapp_no_rewrite :
    ∀ (root : PPExpr) (importerModule rootOwner : Nat),
      (svapp_assert root importerModule rootOwner).root = root ∧
      (svapp_assume root importerModule rootOwner).root = root ∧
      (svapp_cover root importerModule rootOwner).root = root := by
  intro root m r
  exact ⟨rfl, rfl, rfl⟩

/-! ## Module creation and the import work-list (C1)

`VerificImporter::import_netlist` (verific.cc:712-726, the module
creation header and the scheduling of sub-netlists on line 1209) and the
drain loop of `VerificPass::execute` (verific.cc:2111-2119).  Source
names are `Nat`; the target module name is `$verific$<name>` for an
operator netlist and `RTLIL::escape_id(<name>)` otherwise — for
ordinary identifiers these two families are disjoint, so a module name
is modelled as the pair (operator flag, source name). -/

structure VNetlist where
  name : Nat
  isOperator : Bool
deriving DecidableEq, Repr

def module_name (nl : VNetlist) : Bool × Nat := (nl.isOperator, nl.name)

structure Design where
  modules : List (Bool × Nat)
deriving DecidableEq, Repr

inductive ImportErr where
  | redefinition (n : Nat) : ImportErr
deriving DecidableEq, Repr

/-- The read-only Verific side: netlist handles resolve to their owner
name and operator flag, and to the handles of the netlists instantiated
inside them (inserted into `nl_todo` during the import of the body). -/
structure NetlistDB where
  info : Nat → VNetlist
  subs : Nat → List Nat

/-- The duplicate-handling header of `VerificImporter::import_netlist`
(verific.cc:712-726) plus the scheduling effect of its body: when a
module of the target name already exists, a non-operator netlist is a
fatal `log_cmd_error` re-definition, an operator netlist returns at once
(nothing is created, nothing is scheduled); otherwise one module of that
name is added and the sub-netlists found in the body are handed back for
the work-list. -/
def import_netlist (db : NetlistDB) (design : Design) (nlId : Nat) :
    Except ImportErr (Design × List Nat) :=
  let nl := db.info nlId
  if module_name nl ∈ design.modules then
    if ¬ nl.isOperator then Except.error (ImportErr.redefinition nl.name)
    else Except.ok (design, [])
  else
    Except.ok ({ modules := module_name nl :: design.modules }, db.subs nlId)

/-- `std::set` insert: no duplicates. -/
def insertTodo (todo : List Nat) (n : Nat) : List Nat :=
  if n ∈ todo then todo else todo ++ [n]

/-- The drain loop of `VerificPass::execute` (verific.cc:2111-2119):
pick a netlist from `nl_todo`; if it is not in `nl_done`, import it
(which may insert sub-netlists into `nl_todo`); then erase it from
`nl_todo` and insert it into `nl_done`.  The loop is unrolled on a fuel
parameter; exhausted fuel returns the design built so far. -/
def drain (db : NetlistDB) :
    Nat → Design → List Nat → List Nat → Except ImportErr Design
  | _, design, [], _ => Except.ok design
  | 0, design, _ :: _, _ => Except.ok design
  | fuel + 1, design, nl :: rest, done =>
    if nl ∈ done then drain db fuel design rest done
    else
      match import_netlist db design nl with
      | Except.error e => Except.error e
      | Except.ok (design', subs) =>
        drain db fuel design' ((subs.foldl insertTodo (nl :: rest)).erase nl)
          (nl :: done)

theorem insertTodo_nodup (todo : List Nat) (n : Nat) :
    todo.Nodup → (insertTodo todo n).Nodup := by
  intro h
  unfold insertTodo
  by_cases hm : n ∈ todo
  · simp [hm, h]
  · simp [hm, List.nodup_append, h]

/-- C1: at most one target module is ever created per target name, no
matter how many times a netlist is referenced or re-appears on the
work-list; a duplicate target name is a fatal re-definition error for a
non-operator netlist and a silent return (treated as already imported,
nothing scheduled) for an operator netlist. -/
theorem C1_import_once :
    (∀ (db : NetlistDB) (design : Design) (nlId : Nat),
        module_name (db.info nlId) ∈ design.modules →
        (db.info nlId).isOperator = false →
        import_netlist db design nlId =
          Except.error (ImportErr.redefinition (db.info nlId).name)) ∧
    (∀ (db : NetlistDB) (design : Design) (nlId : Nat),
        module_name (db.info nlId) ∈ design.modules →
        (db.info nlId).isOperator = true →
        import_netlist db design nlId = Except.ok (design, [])) ∧
    (∀ (db : NetlistDB) (design : Design) (nlId : Nat),
        module_name (db.info nlId) ∉ design.modules →
        import_netlist db design nlId =
          Except.ok ({ modules := module_name (db.info nlId) :: design.modules },
            db.subs nlId)) ∧
    (∀ (db : NetlistDB) (fuel : Nat) (todo : List Nat) (design : Design)
        (done : List Nat) (design' : Design),
        drain db fuel design todo done = Except.ok design' →
        design.modules.Nodup → design'.modules.Nodup) := by
  refine ⟨?_, ?_, ?_, ?_⟩
  · intro db design nlId hmem hop
    simp [import_netlist, hmem, hop]
  · intro db design nlId hmem hop
    simp [import_netlist, hmem, hop]
  · intro db design nlId hmem
    simp [import_netlist, hmem]
  · intro db fuel
    induction fuel with
    | zero =>
      intro todo design done design' h hn
      cases todo with
      | nil => simp only [drain] at h; cases h; exact hn
      | cons a l => simp only [drain] at h; cases h; exact hn
    | succ f ih =>
      intro todo design done design' h hn
      cases todo with
      | nil => simp only [drain] at h; cases h; exact hn
      | cons nl rest =>
        simp only [drain] at h
        by_cases hd : nl ∈ done
        · rw [if_pos hd] at h
          exact ih rest design done design' h hn
        · rw [if_neg hd] at h
          by_cases hm : module_name (db.info nl) ∈ design.modules
          · by_cases hop : (db.info nl).isOperator
            · rw [show import_netlist db design nl = Except.ok (design, []) from
                by simp [import_netlist, hm, hop]] at h
              exact ih _ design _ design' h hn
            · rw [show import_netlist db design nl =
                  Except.error (ImportErr.redefinition (db.info nl).name) from
                by simp [import_netlist, hm, hop]] at h
              exact absurd h (by simp)
          · rw [show import_netlist db design nl =
                Except.ok ({ modules := module_name (db.info nl) :: design.modules },
                  db.subs nl) from by simp [import_netlist, hm]] at h
            exact ih _ _ _ design' h (by simp [List.nodup_cons, hm, hn])

/-- A design with two operator instantiations of the same source
netlist name and a repeated reference to the same sub-netlist: netlist 0
instantiates netlists 1, 2 and 1 again; netlists 1 and 2 are operator
netlists with the same owner name 5. -/
def dbEx : NetlistDB :=
  { info := fun n =>
      if n = 0 then { name := 9, isOperator := false }
      else { name := 5, isOperator := true },
    subs := fun n => if n = 0 then [1, 2, 1] else [] }

/-- Witness for C1: draining the example work-list creates exactly the
module list [operator 5, top 9] — the second operator netlist with the
same name is accepted silently and creates nothing — and that list has
no duplicate; a direct re-import of the non-operator top is the fatal
re-definition error. -/
theorem C1_import_once_witness :
    drain dbEx 9 { modules := [] } [0] [] =
      Except.ok { modules := [(true, 5), (false, 9)] } ∧
    ({ modules := [(true, 5), (false, 9)] } : Design).modules.Nodup ∧
    import_netlist dbEx { modules := [(true, 5), (false, 9)] } 0 =
      Except.error (ImportErr.redefinition 9) :=
  ⟨rfl,
   C1_import_once.2.2.2 dbEx 9 [0] { modules := [] } [] _ rfl (by simp),
   C1_import_once.1 dbEx { modules := [(true, 5), (false, 9)] } 0 (by simp [dbEx, module_name])
     (by simp [dbEx])⟩

/-! ## RAM import (C8)

The `IsRamNet` branch of `VerificImporter::import_netlist`
(verific.cc:809-874) computes the word width by folding `min` over the
widths of all read and write ports attached to the net, starting from
the net's total bit count; the `OPER_READ_PORT` / `OPER_WRITE_PORT`
instance branches (verific.cc:1075-1124) reject a port whose width
differs from the resulting memory width. -/

inductive RamPortKind where
  | readPort : RamPortKind
  | writePort : RamPortKind
  | clockedWritePort : RamPortKind
  | otherInst (t : Nat) : RamPortKind
deriving DecidableEq, Repr

structure RamPortRef where
  kind : RamPortKind
  outputSize : Nat
  input2Size : Nat
deriving DecidableEq, Repr

inductive RamErr where
  | unsupportedInstanceType : RamErr
  | asymmetricMemory : RamErr
deriving DecidableEq, Repr

/-- The width a port contributes to the `min` fold: `OutputSize()` for a
read port, `Input2Size()` for a (clocked) write port, none for an
unsupported instance type. -/
def ram_port_width (pr : RamPortRef) : Option Nat :=
  match pr.kind with
  | RamPortKind.readPort => some pr.outputSize
  | RamPortKind.writePort => some pr.input2Size
  | RamPortKind.clockedWritePort => some pr.input2Size
  | RamPortKind.otherInst _ => none

/-- The `FOREACH_PORTREF_OF_NET` loop (verific.cc:820-831):
`bits_in_word` starts at `net->Size()` and is lowered to the width of
each read or write port found; an unsupported instance type is a fatal
`log_error`. -/
def ram_bits_in_word (acc : Nat) : List RamPortRef → Except RamErr Nat
  | [] => Except.ok acc
  | pr :: prs =>
    match pr.kind with
    | RamPortKind.readPort => ram_bits_in_word (min acc pr.outputSize) prs
    | RamPortKind.writePort => ram_bits_in_word (min acc pr.input2Size) prs
    | RamPortKind.clockedWritePort => ram_bits_in_word (min acc pr.input2Size) prs
    | RamPortKind.otherInst _ => Except.error RamErr.unsupportedInstanceType

structure RamNet where
  size : Nat
  portrefs : List RamPortRef
deriving DecidableEq, Repr

structure Memory where
  width : Nat
  msize : Nat
deriving DecidableEq, Repr

/-- `memory->width = bits_in_word; memory->size = number_of_bits / bits_in_word;`
(verific.cc:833-834). -/
def import_ram_net (net : RamNet) : Except RamErr Memory :=
  match ram_bits_in_word net.size net.portrefs with
  | Except.error e => Except.error e
  | Except.ok w => Except.ok { width := w, msize := net.size / w }

/-- The asymmetric-memory check of the `OPER_READ_PORT` branch
(verific.cc:1077-1079). -/
def import_read_port (memory : Memory) (pr : RamPortRef) : Except RamErr Nat :=
  if memory.width ≠ pr.outputSize then Except.error RamErr.asymmetricMemory
  else Except.ok pr.outputSize

/-- The asymmetric-memory check of the `OPER_WRITE_PORT` /
`OPER_CLOCKED_WRITE_PORT` branch (verific.cc:1100-1102). -/
def import_write_port (memory : Memory) (pr : RamPortRef) : Except RamErr Nat :=
  if memory.width ≠ pr.input2Size then Except.error RamErr.asymmetricMemory
  else Except.ok pr.input2Size

def portWidths (net : RamNet) : List Nat :=
  net.portrefs.filterMap ram_port_width

theorem ram_bits_in_word_fold :
    ∀ (prs : List RamPortRef) (acc : Nat),
      (∀ pr ∈ prs, ram_port_width pr ≠ none) →
      ram_bits_in_word acc prs =
        Except.ok ((prs.filterMap ram_port_width).foldl min acc) := by
  intro prs
  induction prs with
  | nil => intro acc h; simp [ram_bits_in_word]
  | cons pr rest ih =>
    intro acc h
    have hpr := h pr (by simp)
    have hrest : ∀ q ∈ rest, ram_port_width q ≠ none :=
      fun q hq => h q (by simp [hq])
    cases hk : pr.kind with
    | readPort =>
      simp only [ram_bits_in_word, hk, List.filterMap_cons, ram_port_width]
      rw [ih (min acc pr.outputSize) hrest]
      simp
    | writePort =>
      simp only [ram_bits_in_word, hk, List.filterMap_cons, ram_port_width]
      rw [ih (min acc pr.input2Size) hrest]
      simp
    | clockedWritePort =>
      simp only [ram_bits_in_word, hk, List.filterMap_cons, ram_port_width]
      rw [ih (min acc pr.input2Size) hrest]
      simp
    | otherInst t =>
      exact absurd (by simp [ram_port_width, hk]) hpr

theorem foldl_min_le_init : ∀ (l : List Nat) (acc : Nat), l.foldl min acc ≤ acc := by
  intro l
  induction l with
  | nil => intro acc; simp
  | cons x xs ih =>
    intro acc
    calc xs.foldl min (min acc x) ≤ min acc x := ih (min acc x)
    _ ≤ acc := Nat.min_le_left acc x

theorem foldl_min_le_mem :
    ∀ (l : List Nat) (acc w : Nat), w ∈ l → l.foldl min acc ≤ w := by
  intro l
  induction l with
  | nil => intro acc w h; cases h
  | cons x xs ih =>
    intro acc w h
    rcases List.mem_cons.mp h with h1 | h2
    · subst h1
      calc xs.foldl min (min acc w) ≤ min acc w := foldl_min_le_init xs (min acc w)
      _ ≤ w := Nat.min_le_right acc w
    · exact ih (min acc x) w h2

theorem foldl_min_mem :
    ∀ (l : List Nat) (acc : Nat), l.foldl min acc = acc ∨ l.foldl min acc ∈ l := by
  intro l
  induction l with
  | nil => intro acc; simp
  | cons x xs ih =>
    intro acc
    rcases ih (min acc x) with h | h
    · rcases Nat.le_total acc x with hle | hle
      · left; simp only [List.foldl, h]; exact Nat.min_eq_left hle
      · right; simp only [List.foldl, h]
        exact List.mem_cons.mpr (Or.inl (Nat.min_eq_right hle))
    · right; exact List.mem_cons.mpr (Or.inr h)

/-- C8: the created memory's word width is the minimum among the widths
of the attached read and write ports (whenever the net is a sensible
RAM: at least one port, every port supported, and no port wider than
the whole net), and importing a read or write port whose width differs
from the memory width is the fatal asymmetric-memory error; in
particular a RAM net with a width-8 read port and a width-4 write port
gets word width 4 and its read port import fails with that error. -/
theorem C8_asymmetric_memory :
    (∀ (net : RamNet) (m : Memory),
        (∀ pr ∈ net.portrefs, ram_port_width pr ≠ none) →
        (∀ w ∈ portWidths net, w ≤ net.size) →
        portWidths net ≠ [] →
        import_ram_net net = Except.ok m →
        m.width ∈ portWidths net ∧ ∀ w ∈ portWidths net, m.width ≤ w) ∧
    (∀ (m : Memory) (pr : RamPortRef), m.width ≠ pr.outputSize →
        import_read_port m pr = Except.error RamErr.asymmetricMemory) ∧
    (∀ (m : Memory) (pr : RamPortRef), m.width ≠ pr.input2Size →
        import_write_port m pr = Except.error RamErr.asymmetricMemory) := by
  refine ⟨?_, ?_, ?_⟩
  · intro net m hsup hle hne himp
    unfold import_ram_net at himp
    rw [ram_bits_in_word_fold net.portrefs net.size hsup] at himp
    simp only at himp
    cases himp
    simp only [portWidths] at hle hne ⊢
    constructor
    · rcases foldl_min_mem (net.portrefs.filterMap ram_port_width) net.size with h | h
      · rcases List.exists_mem_of_ne_nil _ hne with ⟨w0, hw0⟩
        have h1 := foldl_min_le_mem (net.portrefs.filterMap ram_port_width) net.size w0 hw0
        have h2 := hle w0 hw0
        have heq : (net.portrefs.filterMap ram_port_width).foldl min net.size = w0 := by
          omega
        rw [heq]; exact hw0
      · exact h
    · intro w hw
      exact foldl_min_le_mem (net.portrefs.filterMap ram_port_width) net.size w hw
  · intro m pr h
    simp [import_read_port, h]
  · intro m pr h
    simp [import_write_port, h]

/-- The spec's concrete example: a 16-bit RAM net with one width-8 read
port and one width-4 write port. -/
def ramEx : RamNet :=
  { size := 16,
    portrefs := [
      { kind := RamPortKind.readPort, outputSize := 8, input2Size := 0 },
      { kind := RamPortKind.writePort, outputSize := 0, input2Size := 4 }] }

/-- Witness for C8: the example memory gets word width 4 (the minimum
port width), and importing its width-8 read port raises the
asymmetric-memory error. -/
theorem C8_asymmetric_memory_witness :
    import_ram_net ramEx = Except.ok { width := 4, msize := 4 } ∧
    (4 ∈ portWidths ramEx ∧ ∀ w ∈ portWidths ramEx, 4 ≤ w) ∧
    import_read_port { width := 4, msize := 4 }
      { kind := RamPortKind.readPort, outputSize := 8, input2Size := 0 } =
      Except.error RamErr.asymmetricMemory :=
  ⟨rfl,
   C8_asymmetric_memory.1 ramEx { width := 4, msize := 4 }
     (by decide) (by decide) (by decide) rfl,
   C8_asymmetric_memory.2.1 { width := 4, msize := 4 }
     { kind := RamPortKind.readPort, outputSize := 8, input2Size := 0 } (by decide)⟩

/-! ## External net resolution (`VerificExtNets`, verific.cc:1732-1813)

Netlist handles resolve to a reference count (`NumOfRefs`) and, when
that count is one, the owner netlist of the single instantiating
reference (`up_inst->Owner()`).  Net handles index into `netOwner`
(their `Owner()` netlist); `get_net_level_up` may append fresh nets.
The worker state also records the memo map `net_level_up`, the ports
created (`___extnets_<n>` at a netlist), and the port-name counter. -/

structure ENNetlist where
  numRefs : Nat
  parent : Nat
deriving DecidableEq, Repr

structure ENHier where
  nl : Nat → ENNetlist

structure ENState where
  netOwner : List Nat
  net_level_up : List (Nat × Nat)
  newPorts : List (Nat × Nat)
  portname_cnt : Nat
deriving DecidableEq, Repr

/-- `net->Owner()`. -/
def ownerOf (s : ENState) (net : Nat) : Nat := s.netOwner.getD net 0

def lookupMemo : List (Nat × Nat) → Nat → Option Nat
  | [], _ => none
  | (a, b) :: rest, net => if a = net then some b else lookupMemo rest net

/-- `VerificExtNets::get_net_level_up` (verific.cc:1740-1768): on a memo
miss, a netlist that is not uniquely instantiated simply returns the net
unchanged; otherwise a new output port is created on the owner, a new
net is created one hierarchy level up and connected through the single
instantiating reference, and the pair is memoized. -/
def get_net_level_up (h : ENHier) (s : ENState) (net : Nat) : ENState × Nat :=
  match lookupMemo s.net_level_up net with
  | some b => (s, b)
  | none =>
    let nlo := ownerOf s net
    if (h.nl nlo).numRefs ≠ 1 then (s, net)
    else
      let newNet := s.netOwner.length
      ({ netOwner := s.netOwner ++ [(h.nl nlo).parent],
         net_level_up := (net, newNet) :: s.net_level_up,
         newPorts := (nlo, s.portname_cnt) :: s.newPorts,
         portname_cnt := s.portname_cnt + 1 }, newNet)

/-- The per-reference repair loop of `VerificExtNets::run`
(verific.cc:1793-1801): while the net is still external to `nl`, move it
one level up; stop when `get_net_level_up` returns the net unchanged.
`IsExternalTo(nl)` is ownership by a netlist other than `nl`.  The loop
is unrolled on a fuel parameter. -/
def resolve_net (h : ENHier) (nl : Nat) : Nat → ENState → Nat → ENState × Nat
  | 0, s, net => (s, net)
  | fuel + 1, s, net =>
    if ownerOf s net ≠ nl then
      let p := get_net_level_up h s net
      if p.2 = net then (p.1, net)
      else resolve_net h nl fuel p.1 p.2
    else (s, net)

/-- Iterated one-level-up parent of a netlist. -/
def upIter (h : ENHier) (o : Nat) : Nat → Nat
  | 0 => o
  | k + 1 => upIter h ((h.nl o).parent) k

/-- Invariant of the worker's memo map: every memoized pair maps an
existing net to a strictly newer existing net owned one level above a
uniquely instantiated owner. -/
def ENInv (h : ENHier) (s : ENState) : Prop :=
  ∀ pr ∈ s.net_level_up,
    pr.1 < pr.2 ∧ pr.2 < s.netOwner.length ∧
    (h.nl (ownerOf s pr.1)).numRefs = 1 ∧
    ownerOf s pr.2 = (h.nl (ownerOf s pr.1)).parent

theorem lookupMemo_mem :
    ∀ (m : List (Nat × Nat)) (net b : Nat),
      lookupMemo m net = some b → (net, b) ∈ m := by
  intro m
  induction m with
  | nil => intro net b h; exact absurd h (by simp [lookupMemo])
  | cons pr rest ih =>
    intro net b h
    obtain ⟨a, c⟩ := pr
    simp only [lookupMemo] at h
    by_cases ha : a = net
    · rw [if_pos ha] at h
      cases h
      subst ha
      exact List.mem_cons_self _ _
    · rw [if_neg ha] at h
      exact List.mem_cons_of_mem _ (ih net b h)

theorem getD_append_lt (l : List Nat) (x i d : Nat) (h : i < l.length) :
    (l ++ [x]).getD i d = l.getD i d := by
  simp only [List.getD_eq_getElem?_getD]
  rw [List.getElem?_append]
  simp [h]

theorem getD_append_len (l : List Nat) (x d : Nat) :
    (l ++ [x]).getD l.length d = x := by
  simp only [List.getD_eq_getElem?_getD]
  rw [List.getElem?_append_right (Nat.le_refl _)]
  simp

/-- C9 part 1 helper: the state and net pieces of `resolve_net` on a
non-uniquely-instantiated owner. -/
theorem resolve_net_multi_ref (h : ENHier) (s : ENState) (nl net fuel : Nat)
    (hmemo : lookupMemo s.net_level_up net = none)
    (hext : ownerOf s net ≠ nl)
    (hrefs : (h.nl (ownerOf s net)).numRefs ≠ 1) :
    resolve_net h nl fuel s net = (s, net) := by
  cases fuel with
  | zero => rfl
  | succ f =>
    simp only [resolve_net, if_pos hext, get_net_level_up, hmemo, if_pos hrefs]
    simp

/-- One unrolling of the repair loop when the net is external and
`get_net_level_up` moves it to a different net. -/
theorem resolve_net_succ_step (h : ENHier) (nl f net net3 : Nat) (s s3 : ENState)
    (hext : ownerOf s net ≠ nl)
    (hglu : get_net_level_up h s net = (s3, net3))
    (hne : net3 ≠ net) :
    resolve_net h nl (f + 1) s net = resolve_net h nl f s3 net3 := by
  simp [resolve_net, hext, hglu, hne]

/-- C9 part 2 helper: with a unique instantiation path of length `k`
from the net's owner up to `nl` and enough fuel, resolution ends on a
net owned by `nl`. -/
theorem resolve_net_unique_path (h : ENHier) :
    ∀ (k : Nat) (s : ENState) (net nl fuel : Nat),
      ENInv h s →
      net < s.netOwner.length →
      (∀ i, i < k → (h.nl (upIter h (ownerOf s net) i)).numRefs = 1) →
      upIter h (ownerOf s net) k = nl →
      k ≤ fuel →
      ownerOf (resolve_net h nl fuel s net).1 (resolve_net h nl fuel s net).2 = nl := by
  intro k
  induction k with
  | zero =>
    intro s net nl fuel hinv hval hchain hend hfuel
    simp only [upIter] at hend
    cases fuel with
    | zero => simpa [resolve_net] using hend
    | succ f => simp [resolve_net, hend]
  | succ k ih =>
    intro s net nl fuel hinv hval hchain hend hfuel
    obtain ⟨f, rfl⟩ : ∃ f, fuel = f + 1 := ⟨fuel - 1, by omega⟩
    by_cases howner : ownerOf s net = nl
    · simp [resolve_net, howner]
    · cases hmemo : lookupMemo s.net_level_up net with
      | some b =>
        have hmem := lookupMemo_mem s.net_level_up net b hmemo
        have hb := hinv (net, b) hmem
        have hbne : b ≠ net := by
          have := hb.1
          simp only at this
          omega
        have hglu : get_net_level_up h s net = (s, b) := by
          simp [get_net_level_up, hmemo]
        rw [resolve_net_succ_step h nl f net b s s howner hglu hbne]
        have hob : ownerOf s b = (h.nl (ownerOf s net)).parent := hb.2.2.2
        have hchain2 : ∀ i, i < k → (h.nl (upIter h (ownerOf s b) i)).numRefs = 1 := by
          intro i hi
          rw [hob]
          exact hchain (i + 1) (by omega)
        have hend2 : upIter h (ownerOf s b) k = nl := by
          rw [hob]; exact hend
        exact ih s b nl f hinv hb.2.1 hchain2 hend2 (by omega)
      | none =>
        have hrefs : (h.nl (ownerOf s net)).numRefs = 1 := by
          have := hchain 0 (by omega)
          simpa [upIter] using this
        set s2 : ENState :=
          { netOwner := s.netOwner ++ [(h.nl (ownerOf s net)).parent],
            net_level_up := (net, s.netOwner.length) :: s.net_level_up,
            newPorts := (ownerOf s net, s.portname_cnt) :: s.newPorts,
            portname_cnt := s.portname_cnt + 1 } with hs2
        have hglu : get_net_level_up h s net = (s2, s.netOwner.length) := by
          simp [get_net_level_up, hmemo, hrefs, hs2]
        have hne : s.netOwner.length ≠ net := by omega
        rw [resolve_net_succ_step h nl f net s.netOwner.length s s2 howner hglu hne]
        have howner_pres : ∀ m, m < s.netOwner.length → ownerOf s2 m = ownerOf s m := by
          intro m hm
          simp only [ownerOf, hs2]
          exact getD_append_lt s.netOwner _ m 0 hm
        have hownerNew : ownerOf s2 s.netOwner.length = (h.nl (ownerOf s net)).parent := by
          simp only [ownerOf, hs2]
          exact getD_append_len s.netOwner _ 0
        have hinv2 : ENInv h s2 := by
          intro pr hpr
          simp only [hs2, List.mem_cons] at hpr
          rcases hpr with hpr | hpr
          · subst hpr
            refine ⟨hval, by simp [hs2], ?_, ?_⟩
            · rw [howner_pres net hval]; exact hrefs
            · rw [howner_pres net hval, hownerNew]
          · have hold := hinv pr hpr
            refine ⟨hold.1, by simp [hs2]; omega, ?_, ?_⟩
            · rw [howner_pres pr.1 (by omega)]; exact hold.2.2.1
            · rw [howner_pres pr.1 (by omega), howner_pres pr.2 hold.2.1]
              exact hold.2.2.2
        have hval2 : s.netOwner.length < s2.netOwner.length := by simp [hs2]
        have hchain2 :
            ∀ i, i < k → (h.nl (upIter h (ownerOf s2 s.netOwner.length) i)).numRefs = 1 := by
          intro i hi
          rw [hownerNew]
          exact hchain (i + 1) (by omega)
        have hend2 : upIter h (ownerOf s2 s.netOwner.length) k = nl := by
          rw [hownerNew]; exact hend
        exact ih s2 s.netOwner.length nl f hinv2 hval2 hchain2 hend2 (by omega)

/-- C9: a net whose owning netlist is instantiated more than once is
left completely unchanged by the resolver (same state: no port, no net,
no memo entry is created) and still reports as external afterwards; a
net whose owner reaches `nl` through a unique instantiation path is
resolved to a net owned by `nl` itself, leaving no remaining external
reference. -/
theorem C9_extnets_resolution :
    (∀ (h : ENHier) (s : ENState) (nl net fuel : Nat),
        lookupMemo s.net_level_up net = none →
        ownerOf s net ≠ nl →
        (h.nl (ownerOf s net)).numRefs ≠ 1 →
        resolve_net h nl fuel s net = (s, net) ∧
        ownerOf (resolve_net h nl fuel s net).1 (resolve_net h nl fuel s net).2 ≠ nl) ∧
    (∀ (h : ENHier) (k : Nat) (s : ENState) (net nl fuel : Nat),
        ENInv h s →
        net < s.netOwner.length →
        (∀ i, i < k → (h.nl (upIter h (ownerOf s net) i)).numRefs = 1) →
        upIter h (ownerOf s net) k = nl →
        k ≤ fuel →
        ownerOf (resolve_net h nl fuel s net).1 (resolve_net h nl fuel s net).2 = nl) := by
  constructor
  · intro h s nl net fuel hmemo hext hrefs
    have heq := resolve_net_multi_ref h s nl net fuel hmemo hext hrefs
    exact ⟨heq, by rw [heq]; exact hext⟩
  · exact fun h => resolve_net_unique_path h

/-- A three-level hierarchy for the C9 witness: netlist 2 is uniquely
instantiated inside netlist 1, netlist 1 uniquely inside netlist 0,
while netlist 3 has two instantiating references.  Net 0 lives in
netlist 2, net 1 lives in netlist 3. -/
def hierEx : ENHier :=
  { nl := fun n =>
      if n = 2 then { numRefs := 1, parent := 1 }
      else if n = 1 then { numRefs := 1, parent := 0 }
      else if n = 3 then { numRefs := 2, parent := 0 }
      else { numRefs := 0, parent := 0 } }

def enStateEx : ENState :=
  { netOwner := [2, 3], net_level_up := [], newPorts := [], portname_cnt := 0 }

/-- Witness for C9 on `hierEx`: net 1 (owner instantiated twice) is left
unchanged and still external; net 0 (unique two-level path) resolves to
a net owned by the root netlist 0. -/
theorem C9_extnets_resolution_witness :
    (resolve_net hierEx 0 5 enStateEx 1 = (enStateEx, 1) ∧
      ownerOf (resolve_net hierEx 0 5 enStateEx 1).1
        (resolve_net hierEx 0 5 enStateEx 1).2 ≠ 0) ∧
    ownerOf (resolve_net hierEx 0 5 enStateEx 0).1
      (resolve_net hierEx 0 5 enStateEx 0).2 = 0 :=
  ⟨C9_extnets_resolution.1 hierEx enStateEx 0 1 5 rfl (by decide) (by decide),
   C9_extnets_resolution.2 hierEx 2 enStateEx 0 0 5 (by intro pr hpr; cases hpr)
     (by decide) (by decide) (by decide) (by decide)⟩

/-! ## The register coalescer (C4)

`VerificImporter::merge_past_ffs` (verific.cc:697-710) groups the
single-bit past-value registers by (clock bit, clock polarity) and runs
`merge_past_ffs_clock` (verific.cc:645-695) on each group.  The module
state relevant to the pass: the single-bit `$dff` cells (`ffs`), the
multi-bit `$dff` cells created by merging (`wides`), the connections
added by `module->connect`, and the fresh-id counter.  A `CBit` is an
`RTLIL::SigBit`: a constant state or a (wire, offset) pair. -/

inductive CBit where
  | cst (v : Nat) : CBit
  | bit (w off : Nat) : CBit
deriving DecidableEq, Repr

structure PastFF where
  id : Nat
  d : CBit
  q : CBit
  clk : CBit
  pol : Bool
deriving DecidableEq, Repr

structure WideFF where
  id : Nat
  clk : CBit
  pol : Bool
  d : List CBit
  qw : Nat
deriving DecidableEq, Repr

structure PMod where
  nextId : Nat
  ffs : List PastFF
  wides : List WideFF
  conns : List (CBit × CBit)
deriving DecidableEq, Repr

/-- `SigMap` as an association list; `add` prepends, application
resolves through the map with a recursion bound (union-find lookup). -/
def smLookup : List (CBit × CBit) → CBit → Option CBit
  | [], _ => none
  | (a, b) :: rest, x => if a = x then some b else smLookup rest x

def smApplyAux : Nat → List (CBit × CBit) → CBit → CBit
  | 0, _, b => b
  | f + 1, sm, b =>
    match smLookup sm b with
    | none => b
    | some c => smApplyAux f sm c

def smApply (sm : List (CBit × CBit)) (b : CBit) : CBit :=
  smApplyAux sm.length sm b

/-- The `SigBit` ordering used by `sort_and_unify`: constants first,
then wire bits ordered by wire and offset. -/
def cbitLe : CBit → CBit → Bool
  | CBit.cst v, CBit.cst v2 => v ≤ v2
  | CBit.cst _, CBit.bit _ _ => true
  | CBit.bit _ _, CBit.cst _ => false
  | CBit.bit w o, CBit.bit w2 o2 => decide (w < w2 ∨ (w = w2 ∧ o ≤ o2))

def insSorted (x : CBit) : List CBit → List CBit
  | [] => [x]
  | y :: ys => if cbitLe x y then x :: y :: ys else y :: insSorted x ys

def sortBits : List CBit → List CBit
  | [] => []
  | x :: xs => insSorted x (sortBits xs)

def dedupAdj : List CBit → List CBit
  | [] => []
  | [x] => [x]
  | x :: y :: ys => if x = y then dedupAdj (y :: ys) else x :: dedupAdj (y :: ys)

/-- `SigSpec::sort_and_unify()`: sort the bits and drop duplicates. -/
def sort_and_unify (l : List CBit) : List CBit := dedupAdj (sortBits l)

/-- Whether two adjacent sorted bits join into one `SigChunk`:
consecutive bits of the same wire, or two constants. -/
def joinable : CBit → CBit → Bool
  | CBit.cst _, CBit.cst _ => true
  | CBit.bit w o, CBit.bit w2 o2 => decide (w = w2 ∧ o2 = o + 1)
  | _, _ => false

/-- `SigSpec::chunks()` on a sorted, duplicate-free bit list: maximal
joinable runs. -/
def chunksOf : List CBit → List (List CBit)
  | [] => []
  | b :: rest =>
    match chunksOf rest with
    | [] => [[b]]
    | [] :: restChunks => [b] :: [] :: restChunks
    | (c :: cs) :: restChunks =>
      if joinable b c then (b :: c :: cs) :: restChunks
      else [b] :: (c :: cs) :: restChunks

/-- `chunk.wire` (`none` is the `nullptr` constant chunk). -/
def chunkWire : List CBit → Option Nat
  | CBit.bit w _ :: _ => some w
  | _ => none

/-- The mutable pieces threaded through one `while` iteration of
`merge_past_ffs_clock`: the module, the candidate pool, the sigmap and
the `keep_running` flag. -/
structure CoalSt where
  md : PMod
  cands : List PastFF
  sm : List (CBit × CBit)
  changed : Bool
deriving DecidableEq, Repr

/-- The inner `for (auto old_ff : dbits_db[sig_d[i]])` loop
(verific.cc:679-692): connect the old output to bit `i` of the new
register, record the alias in the sigmap, and remove the old cell from
the pool and from the module. -/
def removeOlds (qw i : Nat) (olds : List PastFF) (st : CoalSt) : CoalSt :=
  olds.foldl
    (fun st2 old =>
      { md := { st2.md with
                  ffs := st2.md.ffs.erase old,
                  conns := st2.md.conns ++ [(old.q, CBit.bit qw i)] },
        cands := st2.cands.erase old,
        sm := (old.q, CBit.bit qw i) :: st2.sm,
        changed := true })
    st

/-- The `for (int i = 0; i < GetSize(sig_d); i++)` loop over the bits of
one chunk. -/
def mergeChunkLoop (qw : Nat) (db : CBit → List PastFF) :
    Nat → List CBit → CoalSt → CoalSt
  | _, [], st => st
  | i, b :: bs, st => mergeChunkLoop qw db (i + 1) bs (removeOlds qw i (db b) st)

/-- Processing of one chunk (verific.cc:665-693): constant chunks and
single-bit chunks are skipped; otherwise a fresh multi-bit wire and a
fresh multi-bit `$dff` are created and every cell whose mapped `D` bit
lies in the chunk is folded into it. -/
def processChunk (clock : CBit) (pol : Bool) (db : CBit → List PastFF)
    (st : CoalSt) (chunk : List CBit) : CoalSt :=
  if (chunkWire chunk).isNone ∨ chunk.length = 1 then st
  else
    let qw := st.md.nextId
    let md1 := { st.md with
                   nextId := st.md.nextId + 2,
                   wides := st.md.wides ++
                     [{ id := st.md.nextId + 1, clk := clock, pol := pol,
                        d := chunk, qw := qw }] }
    mergeChunkLoop qw db 0 chunk { st with md := md1 }

/-- One iteration of the `while (keep_running)` body
(verific.cc:650-693): snapshot the sigmap-mapped `D` bits of all
candidates (`dbits` and `dbits_db`), sort and unify them, and process
every chunk. -/
def onePass (clock : CBit) (pol : Bool) (md : PMod) (cands : List PastFF)
    (sm : List (CBit × CBit)) : CoalSt :=
  let dbits := cands.map (fun c => smApply sm c.d)
  let db : CBit → List PastFF := fun b => cands.filter (fun c => smApply sm c.d == b)
  (chunksOf (sort_and_unify dbits)).foldl (processChunk clock pol db)
    { md := md, cands := cands, sm := sm, changed := false }

def mergeLoop (clock : CBit) (pol : Bool) :
    Nat → PMod → List PastFF → List (CBit × CBit) → PMod × List PastFF
  | 0, md, cands, _ => (md, cands)
  | fuel + 1, md, cands, sm =>
    let st := onePass clock pol md cands sm
    if st.changed then mergeLoop clock pol fuel st.md st.cands st.sm
    else (st.md, st.cands)

/-- `VerificImporter::merge_past_ffs_clock` (verific.cc:645-695).  Each
iteration that sets `keep_running` removes at least one candidate, so
the `while` loop runs at most `|candidates|` changing iterations plus
one final quiet iteration; the fuel `|candidates| + 1` is exact. -/
def merge_past_ffs_clock (cands : List PastFF) (clock : CBit) (pol : Bool)
    (md : PMod) : PMod × List PastFF :=
  mergeLoop clock pol (cands.length + 1) md cands []

def ffKey (c : PastFF) : CBit × Bool := (c.clk, c.pol)

def dedupKeysAux (seen : List (CBit × Bool)) :
    List (CBit × Bool) → List (CBit × Bool)
  | [] => []
  | k :: ks =>
    if k ∈ seen then dedupKeysAux seen ks
    else k :: dedupKeysAux (k :: seen) ks

/-- The distinct (clock, polarity) keys in first-appearance order (the
`dict` of verific.cc:699-706). -/
def dedupKeys (l : List (CBit × Bool)) : List (CBit × Bool) := dedupKeysAux [] l

/-- `VerificImporter::merge_past_ffs` (verific.cc:697-710): group the
candidates by (clock, polarity) and coalesce each group. -/
def merge_past_ffs (cands : List PastFF) (md : PMod) : PMod :=
  (dedupKeys (cands.map ffKey)).foldl
    (fun md2 k =>
      (merge_past_ffs_clock (cands.filter (fun c => ffKey c == k)) k.1 k.2 md2).1)
    md

/-- The C4 scenario: `m` single-bit past-value registers on one clock
(wire `m+1`), positive polarity, register `i` driven by bit `i` of wire
0 and driving bit 0 of wire `i+1`. -/
def coalClk (m : Nat) : CBit := CBit.bit (m + 1) 0

def coalCell (m i : Nat) : PastFF :=
  { id := i, d := CBit.bit 0 i, q := CBit.bit (i + 1) 0,
    clk := coalClk m, pol := true }

def coalCands (m : Nat) : List PastFF := (List.range m).map (coalCell m)

def coalMod (m : Nat) : PMod :=
  { nextId := m + 2, ffs := coalCands m, wides := [], conns := [] }

/-- The expected coalescing result for the C4 scenario: the `m`
originals are gone, one `m`-bit register (data = bits 0..m-1 of wire 0,
output = fresh wire `m+2`) replaces them, and each old output bit is
connected to the corresponding bit of the new register. -/
def coalMerged (m : Nat) : PMod :=
  { nextId := m + 4,
    ffs := [],
    wides := [{ id := m + 3, clk := coalClk m, pol := true,
                d := (List.range' 0 m).map (fun i => CBit.bit 0 i), qw := m + 2 }],
    conns := (List.range' 0 m).map (fun i => (CBit.bit (i + 1) 0, CBit.bit (m + 2) i)) }

def bitsRun (s len : Nat) : List CBit := (List.range' s len).map (fun i => CBit.bit 0 i)

def cellsRun (m s len : Nat) : List PastFF := (List.range' s len).map (coalCell m)

def connsRun (qw s len : Nat) : List (CBit × CBit) :=
  (List.range' s len).map (fun i => (CBit.bit (i + 1) 0, CBit.bit qw i))

theorem bitsRun_succ (s len : Nat) :
    bitsRun s (len + 1) = CBit.bit 0 s :: bitsRun (s + 1) len := by
  simp [bitsRun, List.range'_succ]

theorem cellsRun_succ (m s len : Nat) :
    cellsRun m s (len + 1) = coalCell m s :: cellsRun m (s + 1) len := by
  simp [cellsRun, List.range'_succ]

theorem connsRun_succ (qw s len : Nat) :
    connsRun qw s (len + 1) =
      (CBit.bit (s + 1) 0, CBit.bit qw s) :: connsRun qw (s + 1) len := by
  simp [connsRun, List.range'_succ]

theorem cbitLe_run (s : Nat) : cbitLe (CBit.bit 0 s) (CBit.bit 0 (s + 1)) = true := by
  simp [cbitLe]

theorem sortBits_bitsRun : ∀ (len s : Nat), sortBits (bitsRun s len) = bitsRun s len := by
  intro len
  induction len with
  | zero => intro s; rfl
  | succ n ih =>
    intro s
    rw [bitsRun_succ]
    simp only [sortBits]
    rw [ih (s + 1)]
    cases n with
    | zero => rfl
    | succ k =>
      rw [bitsRun_succ]
      simp only [insSorted, cbitLe_run, if_pos]

theorem dedupAdj_bitsRun : ∀ (len s : Nat), dedupAdj (bitsRun s len) = bitsRun s len := by
  intro len
  induction len with
  | zero => intro s; rfl
  | succ n ih =>
    intro s
    cases n with
    | zero => rfl
    | succ k =>
      rw [bitsRun_succ, bitsRun_succ]
      simp only [dedupAdj]
      rw [if_neg (by simp)]
      rw [← bitsRun_succ, ih (s + 1)]

theorem joinable_run (s : Nat) :
    joinable (CBit.bit 0 s) (CBit.bit 0 (s + 1)) = true := by
  simp [joinable]

theorem chunksOf_cons (b : CBit) (rest : List CBit) :
    chunksOf (b :: rest) =
      match chunksOf rest with
      | [] => [[b]]
      | [] :: restChunks => [b] :: [] :: restChunks
      | (c :: cs) :: restChunks =>
        if joinable b c then (b :: c :: cs) :: restChunks
        else [b] :: (c :: cs) :: restChunks := rfl

theorem chunksOf_bitsRun :
    ∀ (len s : Nat), 1 ≤ len → chunksOf (bitsRun s len) = [bitsRun s len] := by
  intro len
  induction len with
  | zero => intro s h; omega
  | succ n ih =>
    intro s _
    cases n with
    | zero => rfl
    | succ k =>
      rw [bitsRun_succ, chunksOf_cons, ih (s + 1) (by omega), bitsRun_succ (s + 1) k]
      simp only [joinable_run, if_pos]

theorem smApply_nil (b : CBit) : smApply [] b = b := rfl

theorem filter_cellsRun (m : Nat) :
    ∀ (len s i : Nat),
      (cellsRun m s len).filter (fun c => c.d == CBit.bit 0 i) =
        if s ≤ i ∧ i < s + len then [coalCell m i] else [] := by
  intro len
  induction len with
  | zero =>
    intro s i
    have h : ¬ (s ≤ i ∧ i < s + 0) := by omega
    rw [if_neg h]
    rfl
  | succ n ih =>
    intro s i
    rw [cellsRun_succ]
    simp only [List.filter_cons]
    by_cases hsi : s = i
    · subst hsi
      have hd : ((coalCell m s).d == CBit.bit 0 s) = true := by
        simp [coalCell]
      rw [hd, if_pos rfl, ih (s + 1) s]
      have h1 : ¬ (s + 1 ≤ s ∧ s < s + 1 + n) := by omega
      have h2 : s ≤ s ∧ s < s + (n + 1) := by omega
      rw [if_neg h1, if_pos h2]
    · have hd : ((coalCell m s).d == CBit.bit 0 i) = false := by
        have hds : (coalCell m s).d = CBit.bit 0 s := rfl
        rw [hds]
        simp only [beq_eq_false_iff_ne, ne_eq, CBit.bit.injEq, not_and]
        intro _
        exact hsi
      rw [hd]
      have hff : ¬ (false = true) := by simp
      rw [if_neg hff, ih (s + 1) i]
      by_cases hin : s + 1 ≤ i ∧ i < s + 1 + n
      · have h2 : s ≤ i ∧ i < s + (n + 1) := by omega
        rw [if_pos hin, if_pos h2]
      · have h2 : ¬ (s ≤ i ∧ i < s + (n + 1)) := by omega
        rw [if_neg hin, if_neg h2]

theorem mergeChunkLoop_run (m qw : Nat) (db : CBit → List PastFF) :
    ∀ (len s : Nat) (st : CoalSt),
      (∀ i, s ≤ i → i < s + len → db (CBit.bit 0 i) = [coalCell m i]) →
      st.cands = cellsRun m s len →
      st.md.ffs = cellsRun m s len →
      ∃ sm2,
        mergeChunkLoop qw db s (bitsRun s len) st =
          { md := { nextId := st.md.nextId, ffs := [], wides := st.md.wides,
                    conns := st.md.conns ++ connsRun qw s len },
            cands := [], sm := sm2,
            changed := if len = 0 then st.changed else true } := by
  intro len
  induction len with
  | zero =>
    intro s st hdb hc hf
    refine ⟨st.sm, ?_⟩
    have hb : bitsRun s 0 = [] := rfl
    rw [hb]
    simp only [mergeChunkLoop, if_pos rfl]
    have hcr : connsRun qw s 0 = [] := rfl
    rw [hcr]
    have hc0 : st.cands = [] := hc
    have hf0 : st.md.ffs = [] := hf
    obtain ⟨md0, cands0, sm0, ch0⟩ := st
    obtain ⟨ni0, ffs0, w0, cn0⟩ := md0
    simp only at hc0 hf0 ⊢
    subst hc0
    rw [hf0]
    simp
  | succ n ih =>
    intro s st hdb hc hf
    rw [bitsRun_succ]
    simp only [mergeChunkLoop]
    rw [hdb s (Nat.le_refl s) (by omega)]
    have hcands : st.cands.erase (coalCell m s) = cellsRun m (s + 1) n := by
      rw [hc, cellsRun_succ, List.erase_cons_head]
    have hffs : st.md.ffs.erase (coalCell m s) = cellsRun m (s + 1) n := by
      rw [hf, cellsRun_succ, List.erase_cons_head]
    set st2 : CoalSt :=
      { md := { st.md with
                  ffs := st.md.ffs.erase (coalCell m s),
                  conns := st.md.conns ++ [((coalCell m s).q, CBit.bit qw s)] },
        cands := st.cands.erase (coalCell m s),
        sm := ((coalCell m s).q, CBit.bit qw s) :: st.sm,
        changed := true } with hst2
    have hro : removeOlds qw s [coalCell m s] st = st2 := rfl
    rw [hro]
    obtain ⟨sm2, hloop⟩ := ih (s + 1) st2
      (fun i h1 h2 => hdb i (by omega) (by omega))
      (by rw [hst2]; exact hcands)
      (by rw [hst2]; exact hffs)
    rw [hloop]
    refine ⟨sm2, ?_⟩
    simp only [hst2]
    rw [connsRun_succ]
    have hq : (coalCell m s).q = CBit.bit (s + 1) 0 := rfl
    rw [hq]
    simp [List.append_assoc]

theorem onePass_empty (clock : CBit) (pol : Bool) (md : PMod)
    (sm : List (CBit × CBit)) :
    onePass clock pol md [] sm = { md := md, cands := [], sm := sm, changed := false } := rfl

theorem mergeLoop_quiet (clock : CBit) (pol : Bool) (f : Nat) (md : PMod)
    (sm : List (CBit × CBit)) :
    mergeLoop clock pol (f + 1) md [] sm = (md, []) := by
  simp only [mergeLoop, onePass_empty]
  rfl

theorem coalCands_eq_cellsRun (m : Nat) : coalCands m = cellsRun m 0 m := by
  simp [coalCands, cellsRun, List.range_eq_range']

theorem coalCands_length (m : Nat) : (coalCands m).length = m := by
  simp [coalCands]

theorem onePass_scenario (m : Nat) (hm : 2 ≤ m) :
    ∃ sm2,
      onePass (coalClk m) true (coalMod m) (coalCands m) [] =
        { md := coalMerged m, cands := [], sm := sm2, changed := true } := by
  have hdbits : (coalCands m).map (fun c => smApply [] c.d) = bitsRun 0 m := by
    rw [coalCands_eq_cellsRun]
    simp only [cellsRun, bitsRun, List.map_map]
    rfl
  have hdb : (fun b => (coalCands m).filter (fun c => smApply [] c.d == b)) =
      (fun b => (coalCands m).filter (fun c => c.d == b)) := rfl
  have hsort : sort_and_unify (bitsRun 0 m) = bitsRun 0 m := by
    unfold sort_and_unify
    rw [sortBits_bitsRun, dedupAdj_bitsRun]
  have hchunks : chunksOf (bitsRun 0 m) = [bitsRun 0 m] :=
    chunksOf_bitsRun m 0 (by omega)
  have hbm : ∃ rest, bitsRun 0 m = CBit.bit 0 0 :: rest := by
    obtain ⟨k, rfl⟩ : ∃ k, m = k + 1 := ⟨m - 1, by omega⟩
    exact ⟨bitsRun 1 k, bitsRun_succ 0 k⟩
  obtain ⟨rest, hbm⟩ := hbm
  have hlen : (bitsRun 0 m).length = m := by
    simp [bitsRun]
  have h1 : (chunkWire (bitsRun 0 m)).isNone = false := by rw [hbm]; rfl
  have h2 : (bitsRun 0 m).length ≠ 1 := by rw [hlen]; omega
  have hncond : ¬ ((chunkWire (bitsRun 0 m)).isNone = true ∨ (bitsRun 0 m).length = 1) := by
    intro hc
    rcases hc with hc | hc
    · rw [h1] at hc; exact Bool.false_ne_true hc
    · exact h2 hc
  have hdbf : ∀ i, 0 ≤ i → i < 0 + m →
      (coalCands m).filter (fun c => smApply [] c.d == CBit.bit 0 i) = [coalCell m i] := by
    intro i h0 hi
    rw [show (fun c => smApply [] c.d == CBit.bit 0 i) =
        (fun c : PastFF => c.d == CBit.bit 0 i) from rfl]
    rw [coalCands_eq_cellsRun, filter_cellsRun m m 0 i, if_pos (by omega)]
  obtain ⟨sm2, hloop⟩ := mergeChunkLoop_run m (m + 2)
    (fun b => (coalCands m).filter (fun c => smApply [] c.d == b)) m 0
    { md := { nextId := m + 4,
              ffs := coalCands m,
              wides := [{ id := m + 3, clk := coalClk m, pol := true,
                          d := bitsRun 0 m, qw := m + 2 }],
              conns := [] },
      cands := coalCands m, sm := [], changed := false }
    hdbf (coalCands_eq_cellsRun m) (coalCands_eq_cellsRun m)
  refine ⟨sm2, ?_⟩
  have hop : onePass (coalClk m) true (coalMod m) (coalCands m) [] =
      (chunksOf (sort_and_unify ((coalCands m).map (fun c => smApply [] c.d)))).foldl
        (processChunk (coalClk m) true
          (fun b => (coalCands m).filter (fun c => smApply [] c.d == b)))
        { md := coalMod m, cands := coalCands m, sm := [], changed := false } := rfl
  rw [hop, hdbits, hsort, hchunks]
  simp only [List.foldl_cons, List.foldl_nil]
  unfold processChunk
  rw [if_neg hncond]
  show mergeChunkLoop (m + 2)
      (fun b => (coalCands m).filter (fun c => smApply [] c.d == b)) 0 (bitsRun 0 m)
      { md := { nextId := m + 4,
                ffs := coalCands m,
                wides := [{ id := m + 3, clk := coalClk m, pol := true,
                            d := bitsRun 0 m, qw := m + 2 }],
                conns := [] },
        cands := coalCands m, sm := [], changed := false } =
    { md := coalMerged m, cands := [], sm := sm2, changed := true }
  rw [hloop]
  have hmn : ¬ (m = 0) := by omega
  simp only [if_neg hmn]
  rfl

theorem map_ffKey_coalCands (m : Nat) :
    (coalCands m).map ffKey = List.replicate m (coalClk m, true) := by
  unfold coalCands
  rw [List.map_map]
  have h1 : (ffKey ∘ coalCell m) = fun _ => (coalClk m, true) := rfl
  rw [h1]
  rw [List.map_const']
  simp

theorem dedupKeysAux_replicate (k : CBit × Bool) (seen : List (CBit × Bool))
    (hk : k ∈ seen) : ∀ n, dedupKeysAux seen (List.replicate n k) = [] := by
  intro n
  induction n with
  | zero => rfl
  | succ j ih =>
    simp only [List.replicate_succ, dedupKeysAux, if_pos hk]
    exact ih

theorem dedupKeys_replicate (k : CBit × Bool) :
    ∀ n, 1 ≤ n → dedupKeys (List.replicate n k) = [k] := by
  intro n hn
  obtain ⟨j, rfl⟩ : ∃ j, n = j + 1 := ⟨n - 1, by omega⟩
  simp only [List.replicate_succ, dedupKeys, dedupKeysAux,
    if_neg (List.not_mem_nil k)]
  rw [dedupKeysAux_replicate k [k] (by simp) j]

theorem filter_ffKey_coalCands (m : Nat) :
    (coalCands m).filter (fun c => ffKey c == (coalClk m, true)) = coalCands m := by
  rw [List.filter_eq_self]
  intro c hc
  obtain ⟨i, _, rfl⟩ := List.mem_map.mp hc
  simp [ffKey, coalCell]

theorem merge_past_ffs_clock_scenario (m : Nat) (hm : 2 ≤ m) :
    merge_past_ffs_clock (coalCands m) (coalClk m) true (coalMod m) =
      (coalMerged m, []) := by
  obtain ⟨sm2, hpass⟩ := onePass_scenario m hm
  unfold merge_past_ffs_clock
  rw [coalCands_length]
  obtain ⟨j, hj⟩ : ∃ j, m = j + 1 := ⟨m - 1, by omega⟩
  rw [hj] at hpass hm ⊢
  have hstep : mergeLoop (coalClk (j + 1)) true (j + 1 + 1) (coalMod (j + 1))
      (coalCands (j + 1)) [] =
      mergeLoop (coalClk (j + 1)) true (j + 1) (coalMerged (j + 1)) [] sm2 := by
    show (let st := onePass (coalClk (j + 1)) true (coalMod (j + 1)) (coalCands (j + 1)) []
          if st.changed then
            mergeLoop (coalClk (j + 1)) true (j + 1) st.md st.cands st.sm
          else (st.md, st.cands)) =
        mergeLoop (coalClk (j + 1)) true (j + 1) (coalMerged (j + 1)) [] sm2
    rw [hpass]
    rfl
  rw [hstep]
  rw [mergeLoop_quiet]

/-- C4: for every m ≥ 2, a set of m single-bit past-value registers that
share one clock bit and polarity and are driven by the m bits of one
shared input wire is replaced by exactly one shared m-bit register; the
m originals are removed from the module and each old register output is
connected to the corresponding bit of the new register; and running the
coalescer again on the result (whose single-bit candidate pool is now
empty) changes nothing. -/
theorem C4_register_coalescer :
    ∀ m : Nat, 2 ≤ m →
      merge_past_ffs (coalCands m) (coalMod m) = coalMerged m ∧
      (merge_past_ffs (coalCands m) (coalMod m)).ffs = [] ∧
      merge_past_ffs (merge_past_ffs (coalCands m) (coalMod m)).ffs
          (merge_past_ffs (coalCands m) (coalMod m)) =
        merge_past_ffs (coalCands m) (coalMod m) := by
  intro m hm
  have hmain : merge_past_ffs (coalCands m) (coalMod m) = coalMerged m := by
    unfold merge_past_ffs
    rw [map_ffKey_coalCands, dedupKeys_replicate _ m (by omega)]
    simp only [List.foldl_cons, List.foldl_nil]
    rw [filter_ffKey_coalCands, merge_past_ffs_clock_scenario m hm]
  refine ⟨hmain, by rw [hmain]; rfl, ?_⟩
  rw [hmain]
  rfl

/-- Witness for C4 at m = 3: three single-bit registers on bits 0..2 of
wire 0 coalesce into one 3-bit register and a second run is a no-op. -/
theorem C4_register_coalescer_witness :
    merge_past_ffs (coalCands 3) (coalMod 3) = coalMerged 3 ∧
    merge_past_ffs (merge_past_ffs (coalCands 3) (coalMod 3)).ffs
        (merge_past_ffs (coalCands 3) (coalMod 3)) =
      merge_past_ffs (coalCands 3) (coalMod 3) :=
  ⟨(C4_register_coalescer 3 (by decide)).1, (C4_register_coalescer 3 (by decide)).2.2⟩

end Verific
